import Mathlib

/-!
# Verification of the `LibraryCompiler` (pathurs/libraries)

Shallow embedding of `src/scripts/library-compiler.js`.  Strings are
modelled as `List Char`.  The glossary matcher is a JavaScript `RegExp`
of the fixed shape

    (CLASS|^)(term1|term2|...)(CLASS|$)      flags: g i

where `CLASS` is the character class of `#glossaryEntryAdjacentCharacters`
and each `termN` is the *escape* of a title/alias.  The `escape` helper is
broken: its replacer reads `match[1]`, which for a class with no capture
groups is the match *offset*, so a metacharacter at offset `i` becomes the
source `\<i>` — a backreference or legacy octal escape — and a term is a
literal alternative only when it contains no metacharacter.  We embed the
regex engine's behaviour on exactly this pattern shape: the escape and the
parsing of its output into atoms, leftmost match, alternatives tried in
syntactic order with backtracking, backreference semantics for `\1`–`\3`,
`i`-flag case folding (ASCII simple folding, which agrees with
`Canonicalize` against every text whenever the terms are ASCII), `g`-flag
`lastIndex` statefulness for `.test`, and `String.prototype.replaceAll`
(which resets `lastIndex`).  The engine is stated twice: once on plain
string alternatives (the all-literal special case, the vehicle for the
standalone-token reasoning) and once on parsed alternatives (the compiled
pattern); the `_lit` bridge lemmas prove the two agree on
metacharacter-free terms.
-/

namespace LibraryCompiler

/-- A JS string, modelled as its list of characters. -/
abbrev Str := List Char

/-- The JS `\s` class: whitespace and line terminators
(ECMA-262 `WhiteSpace` ∪ `LineTerminator`). -/
def jsWhitespace (c : Char) : Bool :=
  decide (c = ' ' ∨ c = '\t' ∨ c = '\n' ∨ c.toNat = 11 ∨ c.toNat = 12 ∨ c.toNat = 13 ∨
    c.toNat = 0xa0 ∨ c.toNat = 0x1680 ∨ (0x2000 ≤ c.toNat ∧ c.toNat ≤ 0x200a) ∨
    c.toNat = 0x2028 ∨ c.toNat = 0x2029 ∨ c.toNat = 0x202f ∨ c.toNat = 0x205f ∨
    c.toNat = 0x3000 ∨ c.toNat = 0xfeff)

/-- `#glossaryEntryAdjacentCharacters = /[\s\,\.\!\-\(\)\'\"\“\”\’]/g`:
the characters accepted by the boundary character class. -/
def boundaryChar (c : Char) : Bool :=
  jsWhitespace c ||
    decide (c = ',' ∨ c = '.' ∨ c = '!' ∨ c = '-' ∨ c = '(' ∨ c = ')' ∨
      c = '\'' ∨ c = '"' ∨ c = '“' ∨ c = '”' ∨ c = '’')

/-- Case canonicalisation used by the `i` flag (ASCII simple folding:
`A`–`Z` map to `a`–`z`, everything else is fixed). -/
def jsLower (c : Char) : Char :=
  if 'A' ≤ c ∧ c ≤ 'Z' then Char.ofNat (c.toNat + 32) else c

/-- Case-insensitive character comparison (the `i` flag). -/
def ciEq (c d : Char) : Bool := jsLower c = jsLower d

/-- Does the term `t` occur, case-insensitively, as the contents of
`s` starting at index `q`?  (Literal matching — the semantics of an
all-literal alternative; `matchAtoms_lit` connects it to the general
engine on parsed alternatives.) -/
def ciPrefixAt (t s : Str) (q : Nat) : Bool :=
  match t with
  | [] => true
  | c :: t' =>
    match s.drop q with
    | [] => false
    | d :: _ => ciEq c d && ciPrefixAt t' s (q + 1)

/-- Third capture group `(CLASS|$)` at index `r`: the class alternative
(consuming one character) is tried before the `$` anchor.  Returns the
number of characters consumed. -/
def tryG3 (s : Str) (r : Nat) : Option Nat :=
  match s.drop r with
  | c :: _ => if boundaryChar c then some 1 else none
  | [] => some 0

/-- Second and third groups from index `q`: try each term in
alternation order; a term that matches but whose `(CLASS|$)` fails is
backtracked past.  Returns (term length, group-3 length). -/
def tryTermG3 (terms : List Str) (s : Str) (q : Nat) : Option (Nat × Nat) :=
  match terms with
  | [] => none
  | t :: rest =>
    if ciPrefixAt t s q then
      match tryG3 s (q + t.length) with
      | some g3 => some (t.length, g3)
      | none => tryTermG3 rest s q
    else
      tryTermG3 rest s q

/-- The first alternative of group 1, `CLASS`, with its continuations:
consume a boundary character at `p`, then match the terms and group 3
from `p + 1`. -/
def tryMatchClass (terms : List Str) (s : Str) (p : Nat) : Option (Nat × Nat × Nat) :=
  match s.drop p with
  | c :: _ =>
    if boundaryChar c then
      match tryTermG3 terms s (p + 1) with
      | some (g2, g3) => some (1, g2, g3)
      | none => none
    else none
  | [] => none

/-- Attempt a match of `(CLASS|^)(terms)(CLASS|$)` anchored at index
`p`: the class alternative of group 1 is tried (with all its
continuations) before the `^` anchor (which requires `p = 0`).
Returns the three group lengths. -/
def tryMatchAt (terms : List Str) (s : Str) (p : Nat) : Option (Nat × Nat × Nat) :=
  match tryMatchClass terms s p with
  | some m => some m
  | none =>
    if p = 0 then
      match tryTermG3 terms s 0 with
      | some (g2, g3) => some (0, g2, g3)
      | none => none
    else none

/-- Leftmost match at or after index `p`, with explicit position fuel
(the wrapper `findFrom` supplies exactly the number of remaining start
positions): the engine bumps the start position until the pattern
matches.  Returns the match position and the three group lengths. -/
def findFromAux (terms : List Str) (s : Str) : Nat → Nat → Option (Nat × Nat × Nat × Nat)
  | 0, _ => none
  | n + 1, p =>
    if s.length < p then none
    else
      match tryMatchAt terms s p with
      | some (g1, g2, g3) => some (p, g1, g2, g3)
      | none => findFromAux terms s n (p + 1)

/-- Leftmost match at or after index `p` (start positions `p`, …,
`s.length` are candidates). -/
def findFrom (terms : List Str) (s : Str) (p : Nat) : Option (Nat × Nat × Nat × Nat) :=
  findFromAux terms s (s.length + 1 - p) p

/-- A found match starts at or after the search index and within the
string. -/
theorem findFromAux_le (terms : List Str) (s : Str) :
    ∀ n i p g, findFromAux terms s n i = some (p, g) → i ≤ p ∧ p ≤ s.length := by
  intro n
  induction n with
  | zero => intro i p g h; simp [findFromAux] at h
  | succ n ih =>
    intro i p g h
    rw [findFromAux] at h
    by_cases hlt : s.length < i
    · simp [hlt] at h
    · simp only [hlt, if_false] at h
      cases htry : tryMatchAt terms s i with
      | some m =>
        rw [htry] at h
        obtain ⟨g1, g2, g3⟩ := m
        simp at h
        omega
      | none =>
        rw [htry] at h
        have := ih (i + 1) p g h
        omega

theorem findFrom_le (terms : List Str) (s : Str) :
    ∀ i p g, findFrom terms s i = some (p, g) → i ≤ p ∧ p ≤ s.length :=
  fun _ p g h => findFromAux_le terms s _ _ p g h

/-- Past the end of the string there is no match. -/
theorem findFrom_gt (terms : List Str) (s : Str) (p : Nat) (h : s.length < p) :
    findFrom terms s p = none := by
  unfold findFrom
  have : s.length + 1 - p = 0 := by omega
  rw [this]
  rfl

/-- One search step of the engine: at an in-range start position,
either the pattern matches there or the search moves one position
right. -/
theorem findFrom_step (terms : List Str) (s : Str) (p : Nat) (h : p ≤ s.length) :
    findFrom terms s p =
      match tryMatchAt terms s p with
      | some (g1, g2, g3) => some (p, g1, g2, g3)
      | none => findFrom terms s (p + 1) := by
  unfold findFrom
  have h1 : s.length + 1 - p = (s.length - p) + 1 := by omega
  have h2 : s.length + 1 - (p + 1) = s.length - p := by omega
  rw [h1, h2, findFromAux]
  simp [Nat.not_lt.mpr h]

/-- The replacement template of `#compileGlossaryLinks`:
`` match[1] ++ "$" ++ match[2] ++ ":" ++ id ++ "$" ++ match[3] ``. -/
def markerRepl (entryId : Str) (g1 g2 g3 : Str) : Str :=
  g1 ++ '$' :: g2 ++ ':' :: entryId ++ '$' :: g3

/-- `String.prototype.replaceAll` on the entry's `g`-flagged regex,
with explicit fuel (adequate whenever `fuel + i ≥ s.length + 1`, which
every call maintains: the search index `i` strictly increases, and once
it passes the end `findFrom` is `none`, agreeing with the fuel-0 arm).
`e` is where the pending unreplaced gap starts, `i` where the next
match search starts (they differ only after an empty match, where the
engine advances the search index by one). -/
def replaceAllGoAux (entryId : Str) (terms : List Str) (s : Str) :
    Nat → Nat → Nat → Str
  | 0, e, _ => s.drop e
  | n + 1, e, i =>
    match findFrom terms s i with
    | none => s.drop e
    | some (p, g1, g2, g3) =>
      let repl := markerRepl entryId ((s.drop p).take g1) ((s.drop (p + g1)).take g2)
        ((s.drop (p + g1 + g2)).take g3)
      let len := g1 + g2 + g3
      (s.take p).drop e ++ repl ++
        (if len = 0 then replaceAllGoAux entryId terms s n p (p + 1)
         else replaceAllGoAux entryId terms s n (p + len) (p + len))

/-- One pass of `result.replaceAll(entry.regExp, ...)`. -/
def jsReplaceAll (entryId : Str) (terms : List Str) (s : Str) : Str :=
  replaceAllGoAux entryId terms s (s.length + 1) 0 0

/-- `replaceAllGoAux` at its exact fuel: the remaining replace loop
from gap start `e` and search index `i` (used to state and reason about
`jsReplaceAll` without fuel). -/
def replaceFrom (entryId : Str) (terms : List Str) (s : Str) (e i : Nat) : Str :=
  replaceAllGoAux entryId terms s (s.length + 1 - i) e i

/-- The fuel of `replaceAllGoAux` is irrelevant once adequate. -/
theorem replaceAllGoAux_adequate (entryId : Str) (terms : List Str) (s : Str) :
    ∀ n m e i, s.length + 1 ≤ n + i → s.length + 1 ≤ m + i →
      replaceAllGoAux entryId terms s n e i = replaceAllGoAux entryId terms s m e i := by
  intro n
  induction n with
  | zero =>
    intro m e i hn hm
    have hnone : findFrom terms s i = none := findFrom_gt terms s i (by omega)
    cases m with
    | zero => rfl
    | succ m => rw [replaceAllGoAux, replaceAllGoAux, hnone]
  | succ n ih =>
    intro m e i hn hm
    cases m with
    | zero =>
      have hnone : findFrom terms s i = none := findFrom_gt terms s i (by omega)
      rw [replaceAllGoAux, replaceAllGoAux, hnone]
    | succ m =>
      rw [replaceAllGoAux, replaceAllGoAux]
      cases hf : findFrom terms s i with
      | none => rfl
      | some r =>
        obtain ⟨p, g1, g2, g3⟩ := r
        have hle := findFrom_le terms s i p (g1, g2, g3) hf
        dsimp only
        congr 1
        by_cases hz : g1 + g2 + g3 = 0
        · rw [if_pos hz, if_pos hz]
          exact ih m p (p + 1) (by omega) (by omega)
        · rw [if_neg hz, if_neg hz]
          exact ih m (p + (g1 + g2 + g3)) (p + (g1 + g2 + g3)) (by omega) (by omega)

/-- Fresh-search success of the engine on all-literal alternatives
(the notion of "the term occurs as a standalone token" the matcher
claims compare the compiled pattern to). -/
def matcherMatches (terms : List Str) (s : Str) : Bool :=
  (findFrom terms s 0).isSome

/-!
## The compiled pattern of `#createRegExpForGlossaryEntry`

The `escape` helper is
`text => text.replace(/[\\\^\$\.\*\+\?\(\)\[\]\x7b\x7d\|]/g, ...)`
with replacer `(...match) => "\\" + match[1]`.  The character class has
no capture groups, so the replacer receives `(matched, offset, string)`
and `match[1]` is the *offset* of the metacharacter, not the matched
text: a metacharacter at offset `i` becomes `\` followed by the decimal
digits of `i`.  The compiled pattern `(CLASS|^)(escapedTerms)(CLASS|$)`
(flags `gi`) therefore contains `\<digits>` sequences, which ECMA-262
reads as backreferences (`\1`–`\3`; the pattern has three capture
groups) or as Annex B legacy octal escapes — a term is matched
literally only when it contains no metacharacter.
-/

/-- The metacharacter class of `escape`: backslash, caret, dollar, dot,
star, plus, question mark, parentheses, square brackets, braces and the
vertical bar. -/
def metaChar (c : Char) : Bool :=
  decide (c = '\\' ∨ c = '^' ∨ c = '$' ∨ c = '.' ∨ c = '*' ∨ c = '+' ∨
    c = '?' ∨ c = '(' ∨ c = ')' ∨ c = '[' ∨ c = ']' ∨ c.toNat = 0x7b ∨
    c.toNat = 0x7d ∨ c = '|')

/-- A decimal digit. -/
def digitChar (c : Char) : Bool := decide ('0' ≤ c ∧ c ≤ '9')

/-- An octal digit. -/
def octalChar (c : Char) : Bool := decide ('0' ≤ c ∧ c ≤ '7')

/-- `escape` with the running offset: a metacharacter at offset `i` is
replaced by `\` followed by the decimal digits of `i` (the replacer's
`match[1]` is the offset — the class has no capture groups); every
other character is copied. -/
def escapeAux : Nat → Str → Str
  | _, [] => []
  | i, c :: cs =>
    (if metaChar c then '\\' :: (Nat.repr i).toList else [c]) ++ escapeAux (i + 1) cs

/-- The `escape` helper of `#createRegExpForGlossaryEntry`. -/
def escape (t : Str) : Str := escapeAux 0 t

/-- One atom of a parsed alternative of the terms group: a pattern
character (matched up to `i`-flag canonicalisation) or a
backreference. -/
inductive Atom where
  | lit (c : Char)
  | bref (n : Nat)
deriving DecidableEq

/-- Value of a decimal digit string. -/
def decVal (ds : Str) : Nat := ds.foldl (fun a c => a * 10 + (c.toNat - 48)) 0

/-- Value of an octal digit string. -/
def octVal (ds : Str) : Nat := ds.foldl (fun a c => a * 8 + (c.toNat - 48)) 0

/-- ECMA-262 reading of `\` followed by the maximal digit run `ds`, in
a pattern with three capture groups: a `DecimalEscape` without leading
zero whose value is at most 3 is a backreference; `\8`/`\9` match
themselves (Annex B `NonOctalDecimalEscapeSequence`, as engines
implement it), any further digits staying literal; otherwise an Annex B
`LegacyOctalEscapeSequence` consumes up to three octal digits (two if
the first is `4`–`7`), the remaining digits staying literal. -/
def escAtoms (ds : Str) : List Atom :=
  match ds with
  | [] => []
  | d :: _ =>
    if d ≠ '0' ∧ decVal ds ≤ 3 then [Atom.bref (decVal ds)]
    else if d = '8' ∨ d = '9' then ds.map Atom.lit
    else
      let oct := (ds.takeWhile octalChar).take (if d ≤ '3' then 3 else 2)
      Atom.lit (Char.ofNat (octVal oct)) :: (ds.drop oct.length).map Atom.lit

/-- Parse the escaped source of one term into atoms: `\` starts a
digit escape (taking the maximal digit run, so digits of the original
term directly after an inserted `\<offset>` merge into it); every
other character is a literal.  Structural fuel — each step consumes at
least one source character, so `parseAtoms` supplies the source
length. -/
def parseAtomsAux : Nat → Str → List Atom
  | 0, _ => []
  | _ + 1, [] => []
  | fuel + 1, c :: cs =>
    if c = '\\' then
      escAtoms (cs.takeWhile digitChar) ++
        parseAtomsAux fuel (cs.drop (cs.takeWhile digitChar).length)
    else Atom.lit c :: parseAtomsAux fuel cs

/-- Parse a full escaped-term source. -/
def parseAtoms (src : Str) : List Atom := parseAtomsAux src.length src

/-- A term's alternative in group 2 of the compiled pattern: the parsed
regex source of its escape. -/
def termAtoms (t : Str) : List Atom := parseAtoms (escape t)

/-- All-ASCII string.  `jsLower` models the `i` flag by ASCII folding;
ECMA-262 `Canonicalize` (non-Unicode mode) never equates an ASCII
character with a non-ASCII one, so on all-ASCII terms the model agrees
with the engine against every text. -/
def asciiStr (s : Str) : Bool := s.all (fun c => c.toNat < 128)

/-- Match one parsed alternative at index `q` of `s`.  `cap` is the
text captured by group 1 (one boundary character, or empty for the `^`
alternative): `\1` matches it again, case-insensitively; `\2` (the
still-open enclosing group) and `\3` (not yet attempted) are unset,
and a backreference to an unset group matches the empty string
(ECMA-262 `BackreferenceMatcher`).  Every atom is deterministic, so an
alternative matches in at most one way; returns the index after the
match. -/
def matchAtoms (cap : Str) : List Atom → Str → Nat → Option Nat
  | [], _, q => some q
  | Atom.lit c :: as, s, q =>
    match s.drop q with
    | [] => none
    | d :: _ => if ciEq c d then matchAtoms cap as s (q + 1) else none
  | Atom.bref 1 :: as, s, q =>
    if ciPrefixAt cap s q then matchAtoms cap as s (q + cap.length) else none
  | Atom.bref _ :: as, s, q => matchAtoms cap as s q

/-- Groups 2 and 3 from index `q` (`cap` being group 1's capture): try
the alternatives in order; one that matches but whose `(CLASS|$)` fails
is backtracked past.  Returns (group-2 length, group-3 length). -/
def tryTermG3A (cap : Str) (alts : List (List Atom)) (s : Str) (q : Nat) :
    Option (Nat × Nat) :=
  match alts with
  | [] => none
  | a :: rest =>
    match matchAtoms cap a s q with
    | some q2 =>
      match tryG3 s q2 with
      | some g3 => some (q2 - q, g3)
      | none => tryTermG3A cap rest s q
    | none => tryTermG3A cap rest s q

/-- The `CLASS` alternative of group 1 with its continuations: consume
a boundary character at `p` (group 1's capture), then groups 2 and 3
from `p + 1`. -/
def tryMatchClassA (alts : List (List Atom)) (s : Str) (p : Nat) :
    Option (Nat × Nat × Nat) :=
  match s.drop p with
  | c :: _ =>
    if boundaryChar c then
      match tryTermG3A [c] alts s (p + 1) with
      | some (g2, g3) => some (1, g2, g3)
      | none => none
    else none
  | [] => none

/-- Attempt a match of the compiled pattern anchored at index `p` (the
class alternative of group 1 first, then `^`, which needs `p = 0` and
captures the empty string). -/
def tryMatchAtA (alts : List (List Atom)) (s : Str) (p : Nat) :
    Option (Nat × Nat × Nat) :=
  match tryMatchClassA alts s p with
  | some m => some m
  | none =>
    if p = 0 then
      match tryTermG3A [] alts s 0 with
      | some (g2, g3) => some (0, g2, g3)
      | none => none
    else none

/-- Leftmost match of the compiled pattern at or after index `p`, with
the position fuel of `findFromAux`. -/
def findFromAuxA (alts : List (List Atom)) (s : Str) :
    Nat → Nat → Option (Nat × Nat × Nat × Nat)
  | 0, _ => none
  | n + 1, p =>
    if s.length < p then none
    else
      match tryMatchAtA alts s p with
      | some (g1, g2, g3) => some (p, g1, g2, g3)
      | none => findFromAuxA alts s n (p + 1)

/-- Leftmost match of the compiled pattern at or after index `p`. -/
def findFromA (alts : List (List Atom)) (s : Str) (p : Nat) :
    Option (Nat × Nat × Nat × Nat) :=
  findFromAuxA alts s (s.length + 1 - p) p

/-- `String.prototype.replaceAll` on the compiled pattern, exactly as
`replaceAllGoAux` but over parsed alternatives. -/
def replaceAllGoAuxA (entryId : Str) (alts : List (List Atom)) (s : Str) :
    Nat → Nat → Nat → Str
  | 0, e, _ => s.drop e
  | n + 1, e, i =>
    match findFromA alts s i with
    | none => s.drop e
    | some (p, g1, g2, g3) =>
      let repl := markerRepl entryId ((s.drop p).take g1) ((s.drop (p + g1)).take g2)
        ((s.drop (p + g1 + g2)).take g3)
      let len := g1 + g2 + g3
      (s.take p).drop e ++ repl ++
        (if len = 0 then replaceAllGoAuxA entryId alts s n p (p + 1)
         else replaceAllGoAuxA entryId alts s n (p + len) (p + len))

/-- One pass of `result.replaceAll(entry.regExp, ...)`. -/
def jsReplaceAllA (entryId : Str) (alts : List (List Atom)) (s : Str) : Str :=
  replaceAllGoAuxA entryId alts s (s.length + 1) 0 0

/-- `RegExp.prototype.test` on the `g`-flagged compiled regex, stateful
in `lastIndex`: matching starts at the current `lastIndex`; success
sets it to the match end, failure (or a `lastIndex` past the end)
resets it to `0`.  Returns the success flag and the new `lastIndex`. -/
def jsTestA (alts : List (List Atom)) (li : Nat) (s : Str) : Bool × Nat :=
  if s.length < li then (false, 0)
  else
    match findFromA alts s li with
    | some (p, g1, g2, g3) => (true, p + g1 + g2 + g3)
    | none => (false, 0)

/-- The compiled matcher fires somewhere in `s` (a fresh `.test`). -/
def matcherMatchesA (alts : List (List Atom)) (s : Str) : Bool :=
  (findFromA alts s 0).isSome

/-!
## Glossary parsing (`#parseGlossary`)
-/

/-- A raw glossary entry as read from the input JSON: `id`, `title`,
optional `aliases`, optional prose `description`. -/
structure RawEntry where
  id : Str
  title : Str
  aliases : Option (List Str)
  description : Option Str
deriving DecidableEq

/-- The title and alias strings of an entry — the tokens the spec's
matcher description speaks of (`[title, ...aliases]`). -/
def rawTerms (e : RawEntry) : List Str :=
  e.title :: e.aliases.getD []

/-- `#createRegExpForGlossaryEntry`: the group-2 alternatives of the
compiled regex — the parsed escape of the title and of each alias.
`escape` is offset-based, so an alternative is all-literal exactly when
its term has no metacharacter.  Parsing the `|`-join of the escaped
terms alternative by alternative is faithful because the escape output
never contains a literal `|` or `(` — both are metacharacters and come
out as digit escapes — so the alternatives correspond one-to-one to
the terms and the pattern keeps exactly its three capture groups. -/
def entryAtoms (e : RawEntry) : List (List Atom) :=
  (rawTerms e).map termAtoms

/-- A parsed glossary entry: the raw fields plus `descendantCount`
(always `0`), the matcher (`regExp`, kept as its parsed group-2
alternatives) and the `conflicts` id list (`[]` models the
initially-absent field). -/
structure PEntry where
  id : Str
  title : Str
  aliases : Option (List Str)
  description : Option Str
  descendantCount : Nat
  terms : List (List Atom)
  conflicts : List Str
deriving DecidableEq

/-- First loop of `#parseGlossary`: build each entry and its regex. -/
def initEntry (r : RawEntry) : PEntry :=
  ⟨r.id, r.title, r.aliases, r.description, 0, entryAtoms r, []⟩

/-- The strings conflict detection tests an entry's regex against:
`[otherEntry.id, ...(otherEntry.aliases ?? [])]`. -/
def candidateStrings (e : PEntry) : List Str :=
  e.id :: e.aliases.getD []

/-- `[..].some(idOrAlias => entry.regExp.test(idOrAlias))`: tests the
candidate strings left to right, short-circuiting at the first success,
threading the regex's `lastIndex` through the calls. -/
def scanCands (alts : List (List Atom)) (li : Nat) : List Str → Bool × Nat
  | [] => (false, li)
  | c :: cs =>
    let r := jsTestA alts li c
    if r.1 then (true, r.2) else scanCands alts r.2 cs

/-- Inner loop of conflict detection for the fixed entry `E` (at index
`i`), iterating the remaining entry indices `js`: walk every other
entry `F` (index `j ≠ i`), test `E.regExp` against `F`'s id and aliases
(stateful in `lastIndex` `li`), and push `E.id` onto `F.conflicts` on
success. -/
def innerLoop (E : PEntry) (i : Nat) : List PEntry → List Nat → Nat → List PEntry
  | cur, [], _ => cur
  | cur, j :: js, li =>
    if j = i then innerLoop E i cur js li
    else
      match cur[j]? with
      | none => innerLoop E i cur js li
      | some F =>
        let r := scanCands E.terms li (candidateStrings F)
        innerLoop E i
          (if r.1 then cur.set j { F with conflicts := F.conflicts ++ [E.id] } else cur)
          js r.2

/-- `innerLoop` never changes the number of entries. -/
theorem innerLoop_length (E : PEntry) (i : Nat) :
    ∀ cur js li, (innerLoop E i cur js li).length = cur.length := by
  intro cur js
  induction js generalizing cur with
  | nil => intro li; rfl
  | cons j js ih =>
    intro li
    rw [innerLoop]
    split
    · exact ih cur li
    · match h : cur[j]? with
      | none => simp only [h]; exact ih cur _
      | some F =>
        simp only [h]
        rw [ih]
        split <;> simp

/-- Outer loop of conflict detection, iterating the entry indices: each
entry `E` in turn (with a fresh regex, `lastIndex = 0`) is tested
against all other entries. -/
def outerLoop : List PEntry → List Nat → List PEntry
  | es, [] => es
  | es, i :: is =>
    match es[i]? with
    | none => outerLoop es is
    | some E => outerLoop (innerLoop E i es (List.range es.length) 0) is

/-- The conflict-detection double loop of `#parseGlossary`. -/
def markConflicts (es : List PEntry) : List PEntry :=
  outerLoop es (List.range es.length)

/-- Modelled from the spec: `compareBooleans` of `@colonise/utilities`
(not in this repository) orders `false` before `true`, so that the sort
`entries.sort((a, b) => compareBooleans(a.conflicts?.includes(b.id)))`
"moves entries flagged as conflicting toward the end"; the omitted
second argument is `undefined`, which coerces to `false`. -/
def compareBooleans (a b : Bool) : Int :=
  (if a then 1 else 0) - (if b then 1 else 0)

/-- Modelled from the spec: `compareStringsBy` of `@colonise/utilities`
(not in this repository) compares the projected strings, here by
code-unit lexicographic order, giving the "stable, deterministic
baseline" id order. -/
def strCmp : Str → Str → Int
  | [], [] => 0
  | [], _ :: _ => -1
  | _ :: _, [] => 1
  | a :: as, b :: bs =>
    if a.toNat < b.toNat then -1
    else if b.toNat < a.toNat then 1
    else strCmp as bs

/-- Stable insertion used to model `Array.prototype.sort` (stable per
ES2019): `x` is placed before the first element strictly greater than
it, hence after all earlier-inserted elements it compares equal to. -/
def stableInsert (cmp : α → α → Int) (x : α) : List α → List α
  | [] => [x]
  | y :: ys => if cmp x y < 0 then x :: y :: ys else y :: stableInsert cmp x ys

/-- `Array.prototype.sort(cmp)` modelled as a stable sort (elements
inserted in original order). -/
def jsSort (cmp : α → α → Int) (l : List α) : List α :=
  l.foldl (fun acc x => stableInsert cmp x acc) []

/-- The parsed glossary: id/title defaults, conflict-decorated entries
in the final two-sort order, `descendantCount` = entry count. -/
structure Glossary where
  id : Str
  title : Str
  entries : List PEntry
  descendantCount : Nat
deriving DecidableEq

/-- The raw glossary object (`id`, `title`, `entries`). -/
structure RawGlossary where
  id : Option Str
  title : Option Str
  entries : List RawEntry
deriving DecidableEq

/-- `#parseGlossary`: build entries with their regexes, run conflict
detection, sort by id, then stable-sort conflicting entries toward the
end, and record the entry count as the descendant count. -/
def parseGlossary (raw : RawGlossary) : Glossary :=
  let entries0 := raw.entries.map initEntry
  let marked := markConflicts entries0
  let sorted1 := jsSort (fun a b => strCmp a.id b.id) marked
  let sorted2 := jsSort (fun a b => compareBooleans (a.conflicts.contains b.id) false) sorted1
  ⟨raw.id.getD "glossary".toList, raw.title.getD "Glossary".toList, sorted2, sorted2.length⟩

/-!
## Link compilation (`#compileGlossaryLinks`)
-/

/-- `#compileGlossaryLinks`: `undefined` for a `null`/`undefined` text,
a bare `return` (also `undefined`) for an empty glossary, otherwise
each entry's global replace applied in glossary order over the current
state of the field. -/
def compileGlossaryLinks (entries : List PEntry) (text : Option Str) : Option Str :=
  match text with
  | none => none
  | some t =>
    if entries.isEmpty then none
    else some (entries.foldl (fun r e => jsReplaceAllA e.id e.terms r) t)

/-!
## Section/document parsing (`#parseSections`, `#parseDocuments`)
-/

/-- A raw section tree from the input JSON: relevant fields plus the
recursive optional `sections` list. -/
inductive RawSection where
  | mk (id : Option Str) (title : Option Str) (description : Option Str)
      (sections : Option (List RawSection))

/-- A parsed section: fields copied, children parsed, and the computed
`descendantCount`. -/
inductive PSection where
  | mk (id : Option Str) (title : Option Str) (description : Option Str)
      (sections : List PSection) (descendantCount : Nat)

def PSection.description : PSection → Option Str
  | .mk _ _ d _ _ => d

def PSection.sections : PSection → List PSection
  | .mk _ _ _ ss _ => ss

def PSection.descendantCount : PSection → Nat
  | .mk _ _ _ _ n => n

mutual

/-- One iteration of the `#parseSections` loop: copy the raw section,
parse `rawSection.sections ?? []`, and set
`descendantCount = sections.length + sections.reduce((acc, s) => acc + s.descendantCount, 0)`. -/
def parseSection : RawSection → PSection
  | .mk i t d ss =>
    let children :=
      match ss with
      | none => parseSectionList []
      | some rs => parseSectionList rs
    .mk i t d children
      (children.length + children.foldl (fun acc s => acc + s.descendantCount) 0)

/-- `#parseSections`: parse each raw section in order. -/
def parseSectionList : List RawSection → List PSection
  | [] => []
  | r :: rs => parseSection r :: parseSectionList rs

end

/-- A raw document from the input JSON. -/
structure RawDocument where
  id : Option Str
  title : Option Str
  description : Option Str
  sections : Option (List RawSection)

/-- A parsed document (one iteration of the `#parseDocuments` loop). -/
structure PDocument where
  id : Option Str
  title : Option Str
  description : Option Str
  sections : List PSection
  descendantCount : Nat

def parseDocument (r : RawDocument) : PDocument :=
  let ss :=
    match r.sections with
    | none => parseSectionList []
    | some rs => parseSectionList rs
  ⟨r.id, r.title, r.description, ss,
    ss.length + ss.foldl (fun acc s => acc + s.descendantCount) 0⟩

/-- The `documents` index node built by `#parseDocuments`. -/
structure DocumentsIndex where
  id : Str
  title : Str
  documents : List PDocument
  descendantCount : Nat

/-- `#parseDocuments`: parse every raw document, then set the index
node's `descendantCount` to
`documents.length + documents.reduce((acc, d) => acc + d.descendantCount, 0)`. -/
def parseDocuments (rs : List RawDocument) : DocumentsIndex :=
  let docs := rs.map parseDocument
  ⟨"documents".toList, "Documents".toList, docs,
    docs.length + docs.foldl (fun acc d => acc + d.descendantCount) 0⟩

/-- The appendices subtree is opaque: `#writeAppendicesOutput` reports
`descendantCount: 0`. -/
def appendicesDescendantCount : Nat := 0

/-- The root descendant count written by `#writeLibraryOutput`:
`documents.descendantCount + 1 + appendices.descendantCount + 1 + glossary.descendantCount + 1`. -/
def libraryDescendantCount (docsDC appDC glossDC : Nat) : Nat :=
  docsDC + 1 + appDC + 1 + glossDC + 1

/-- Total node count of a forest of parsed sections. -/
def sectionForestSize : List PSection → Nat
  | [] => 0
  | .mk _ _ _ ss _ :: rest => 1 + sectionForestSize ss + sectionForestSize rest

/-- The number of strict descendants of a parsed section (its whole
subtree minus itself). -/
def strictDescendants (p : PSection) : Nat :=
  sectionForestSize p.sections

/-!
## Deep link compilation (`#deepCompileGlossaryLinks`)
-/

/-- The compiler state `#deepCompileGlossaryLinks` walks: the raw
library JSON's description, the parsed documents, the parsed glossary
entries. -/
structure CompilerState where
  libraryDescription : Option Str
  documents : List PDocument
  glossaryEntries : List PEntry

/-- `mutate(object, 'description')`: when the field holds a string it
is overwritten with `#compileGlossaryLinks` of it (absent fields are
skipped silently). -/
def mutateDescription (entries : List PEntry) : Option Str → Option Str
  | none => none
  | some s => compileGlossaryLinks entries (some s)

/-- `mutateSections`: depth-first pre-order over a section forest,
rewriting each description. -/
def mutateSectionList (entries : List PEntry) : List PSection → List PSection
  | [] => []
  | .mk i t d ss n :: rest =>
    .mk i t (mutateDescription entries d) (mutateSectionList entries ss) n ::
      mutateSectionList entries rest

/-- The `for (const document of ...)` loop of
`#deepCompileGlossaryLinks`.  Returns the updated document list and
whether the loop ran to completion: on a document with an empty
`sections` list the source executes `return` — not `continue` — which
aborts the entire pass (remaining documents and the glossary loop are
skipped). -/
def deepGoDocuments (entries : List PEntry) : List PDocument → List PDocument × Bool
  | [] => ([], true)
  | d :: ds =>
    let d' := { d with description := mutateDescription entries d.description }
    if d.sections.isEmpty then (d' :: ds, false)
    else
      let d'' := { d' with sections := mutateSectionList entries d.sections }
      let rest := deepGoDocuments entries ds
      (d'' :: rest.1, rest.2)

/-- `#deepCompileGlossaryLinks`: short-circuit on an empty glossary or
empty document list; otherwise rewrite the library description, walk
the documents (with the early-`return` behaviour of `deepGoDocuments`),
and only if that loop completed, rewrite every glossary entry's own
description. -/
def deepCompileGlossaryLinks (st : CompilerState) : CompilerState :=
  if st.glossaryEntries.isEmpty || st.documents.isEmpty then st
  else
    let entries := st.glossaryEntries
    let lib' := mutateDescription entries st.libraryDescription
    let docsR := deepGoDocuments entries st.documents
    let gloss' :=
      if docsR.2 then
        entries.map (fun e => { e with description := mutateDescription entries e.description })
      else entries
    ⟨lib', docsR.1, gloss'⟩

/-!
## Reference resolution (`#resolveFiles` and friends)

The input is "an already-parsed, language-neutral tree of
maps/sequences/scalars".  `JTree` is a JS value: the JSON scalars plus
arrays, string-keyed objects, and `undefined` (which resolution can
introduce).  File reading is a parameter `fs : Str → Option Str`
(`none` = unreadable, fatal) and `JSON.parse` a parameter
`parse : Str → Option JTree` (`none` = parse error, fatal).  All
failure (fatal error, or exhaustion of the recursion fuel, which models
the divergence on reference cycles) is `Option.none` in the result.
-/

/-- A JavaScript value as handled by the resolver. -/
inductive JTree where
  | undef
  | null
  | bool (b : Bool)
  | num (n : Int)
  | str (s : Str)
  | arr (elems : List JTree)
  | obj (fields : List (Str × JTree))

/-- JS `String.prototype.trim` (strips the same `\s` class). -/
def jsTrim (s : Str) : Str :=
  ((s.dropWhile jsWhitespace).reverse.dropWhile jsWhitespace).reverse

/-- `text.startsWith(prefix)`. -/
def startsWith (pre s : Str) : Bool :=
  s.take pre.length = pre

/-- ASCII letter, as matched by `[a-zA-Z]`. -/
def isAlpha (c : Char) : Bool :=
  decide (('a' ≤ c ∧ c ≤ 'z') ∨ ('A' ≤ c ∧ c ≤ 'Z'))

/-- `#extractFilePath`: `text.replace(/^[a-zA-Z]+\:/, '')` — strip one
leading alphabetic scheme and its colon, if present. -/
def extractFilePath (s : Str) : Str :=
  let letters := s.takeWhile isAlpha
  if letters.length ≠ 0 ∧ (s.drop letters.length).take 1 = [':'] then
    s.drop (letters.length + 1)
  else s

/-- Split a path into `/`-separated segments. -/
def splitPath (p : Str) : List Str :=
  p.splitOn '/'

/-- Path normalisation of `node:path` (posix), embedded for the
relative paths this compiler manipulates: drop empty and `.` segments,
let `..` pop the previous segment. -/
def normalizeSegs : List Str → List Str :=
  List.foldl
    (fun acc seg =>
      if seg = [] ∨ seg = ".".toList then acc
      else if seg = "..".toList then acc.dropLast
      else acc ++ [seg])
    []

/-- Join segments back into a path (`.` for the empty result, as
`node:path` does). -/
def joinSegs : List Str → Str
  | [] => ".".toList
  | [s] => s
  | s :: rest => s ++ '/' :: joinSegs rest

/-- `dirname(p)` of `node:path` (posix, relative paths): all segments
but the last, `.` when there is no directory part. -/
def dirname (p : Str) : Str :=
  let segs := splitPath p
  if segs.length ≤ 1 then ".".toList else joinSegs segs.dropLast

/-- `join(a, b)` of `node:path` (posix): concatenate and normalise. -/
def joinPath (a b : Str) : Str :=
  joinSegs (normalizeSegs (splitPath a ++ splitPath b))

/-- `#resolveRelativeFilePath`: `join(dirname(currentFilePath), filePath)`. -/
def resolveRelativeFilePath (currentFilePath filePath : Str) : Str :=
  joinPath (dirname currentFilePath) filePath

section Resolver

variable (parse : Str → Option JTree) (fs : Str → Option Str)

/-- `#readJSONFile`: read the file (unreadable is fatal), return
`undefined` for empty/whitespace-only content, otherwise `JSON.parse`
it (a parse error is fatal). -/
def readJSONFile (p : Str) : Option JTree :=
  match fs p with
  | none => none
  | some content =>
    if jsTrim content = [] then some JTree.undef else parse content

/-- `{...object}` for a string: the index-keyed character object
(`{'0': s[0], '1': s[1], ...}`); the property loop then leaves every
single-character value unchanged. -/
def jsSpreadStr (s : Str) : JTree :=
  JTree.obj ((List.range s.length).map
    (fun i => ((Nat.repr i).toList, JTree.str ((s.drop i).take 1))))

mutual

/-- `#resolveFiles(object, filePath)`.  `undefined`/`null` resolve to
`undefined`; otherwise the value is shallow-copied (`[...object]` /
`{...object}` — spreading a number or boolean yields `{}`, spreading a
string the index-keyed character object) and every property value is
rewritten by the `switch` in `resolveValue`.  The fuel bounds the total
recursion depth (a reference cycle exhausts it: `none`, matching the
fatal divergence). -/
def resolveFiles : Nat → JTree → Str → Option JTree
  | 0, _, _ => none
  | _ + 1, JTree.undef, _ => some JTree.undef
  | _ + 1, JTree.null, _ => some JTree.undef
  | _ + 1, JTree.str s, _ => some (jsSpreadStr s)
  | _ + 1, JTree.num _, _ => some (JTree.obj [])
  | _ + 1, JTree.bool _, _ => some (JTree.obj [])
  | fuel + 1, JTree.arr elems, fp => (resolveElems fuel elems fp).map JTree.arr
  | fuel + 1, JTree.obj fields, fp => (resolveProps fuel fields fp).map JTree.obj

/-- The property loop over an array's elements. -/
def resolveElems : Nat → List JTree → Str → Option (List JTree)
  | 0, _, _ => none
  | _ + 1, [], _ => some []
  | fuel + 1, v :: vs, fp => do
    let v' ← resolveValue fuel v fp
    let vs' ← resolveElems fuel vs fp
    pure (v' :: vs')

/-- The property loop over an object's fields. -/
def resolveProps : Nat → List (Str × JTree) → Str → Option (List (Str × JTree))
  | 0, _, _ => none
  | _ + 1, [], _ => some []
  | fuel + 1, (k, v) :: kvs, fp => do
    let v' ← resolveValue fuel v fp
    let kvs' ← resolveProps fuel kvs fp
    pure ((k, v') :: kvs')

/-- The `switch (typeof propertyValue)` body: a `json:` string is
loaded from the path joined against the referencing file's directory,
recursively resolved (`#readJSONFileAndResolveFiles` resolves the
loaded tree against the *target's* path), then resolved once more
against the referencing path; a `markdown:` string is replaced by the
target's raw text; any other string, number, boolean or `undefined`
passes through; `object`s (arrays, objects — and `null`, whose
`typeof` is `'object'` and which therefore becomes `undefined`)
recurse. -/
def resolveValue : Nat → JTree → Str → Option JTree
  | 0, _, _ => none
  | fuel + 1, JTree.str s, fp =>
    if startsWith "json:".toList s then do
      let loaded ← readJSONFileAndResolveFiles fuel
        (resolveRelativeFilePath fp (extractFilePath s))
      resolveFiles fuel loaded fp
    else if startsWith "markdown:".toList s then
      (fs (resolveRelativeFilePath fp (extractFilePath s))).map JTree.str
    else some (JTree.str s)
  | fuel + 1, JTree.null, fp => resolveFiles fuel JTree.null fp
  | fuel + 1, JTree.arr es, fp => resolveFiles fuel (JTree.arr es) fp
  | fuel + 1, JTree.obj kvs, fp => resolveFiles fuel (JTree.obj kvs) fp
  | _ + 1, v, _ => some v

/-- `#readJSONFileAndResolveFiles`: read and parse `filePath`, then
resolve the parsed tree against `filePath` itself (this is what makes
resolution transitive through chains of referenced files). -/
def readJSONFileAndResolveFiles : Nat → Str → Option JTree
  | 0, _ => none
  | fuel + 1, p => do
    let j ← readJSONFile parse fs p
    resolveFiles fuel j p

end

end Resolver

/-!
## Reference-semantics model of `#resolveFiles` (for the frame property)

JS arrays and objects are heap references; `#resolveFiles` shallow-copies
its argument (`[...object]` / `{...object}`) and assigns only into the
copy (`result[propertyKey] = ...`).  To state that the caller's tree is
not mutated we re-embed the resolver over an explicit store: `HVal` is a
JS value (scalars or a reference), `HCell` an array/object heap cell,
`Store` the heap (cell address = list index).  Writes are explicit
`setCellVal` updates, exactly where the source assigns.
-/

/-- A JS runtime value: primitive, or a reference to a heap cell. -/
inductive HVal where
  | undef
  | null
  | bool (b : Bool)
  | num (n : Int)
  | str (s : Str)
  | ref (a : Nat)
deriving DecidableEq

/-- A heap cell: an array or a string-keyed object. -/
inductive HCell where
  | arrC (elems : List HVal)
  | objC (fields : List (Str × HVal))
deriving DecidableEq

/-- The heap: a cell per address, addresses allocated in order. -/
abbrev Store := List HCell

/-- Number of own properties iterated by `Object.keys`. -/
def cellLen : HCell → Nat
  | .arrC es => es.length
  | .objC fs => fs.length

/-- Read property number `i` of a cell. -/
def cellVal (c : HCell) (i : Nat) : Option HVal :=
  match c with
  | .arrC es => es[i]?
  | .objC fs => (fs[i]?).map Prod.snd

/-- `result[propertyKey] = v`: overwrite property `i` of the cell at
address `a` (keys are preserved; other cells untouched). -/
def setCellVal (σ : Store) (a i : Nat) (v : HVal) : Store :=
  match σ[a]? with
  | some (.arrC es) => σ.set a (.arrC (es.set i v))
  | some (.objC fs) =>
    match fs[i]? with
    | some (k, _) => σ.set a (.objC (fs.set i (k, v)))
    | none => σ
  | none => σ

mutual

/-- Allocate a parsed JSON tree (`JSON.parse` builds fresh cells). -/
def allocJ (σ : Store) : JTree → Store × HVal
  | .undef => (σ, .undef)
  | .null => (σ, .null)
  | .bool b => (σ, .bool b)
  | .num n => (σ, .num n)
  | .str s => (σ, .str s)
  | .arr es =>
    let r := allocJList σ es
    (r.1 ++ [HCell.arrC r.2], .ref r.1.length)
  | .obj kvs =>
    let r := allocJProps σ kvs
    (r.1 ++ [HCell.objC r.2], .ref r.1.length)

def allocJList (σ : Store) : List JTree → Store × List HVal
  | [] => (σ, [])
  | t :: ts =>
    let r := allocJ σ t
    let rs := allocJList r.1 ts
    (rs.1, r.2 :: rs.2)

def allocJProps (σ : Store) : List (Str × JTree) → Store × List (Str × HVal)
  | [] => (σ, [])
  | (k, t) :: ts =>
    let r := allocJ σ t
    let rs := allocJProps r.1 ts
    (rs.1, (k, r.2) :: rs.2)

end

section HeapResolver

variable (parse : Str → Option JTree) (fs : Str → Option Str)

mutual

/-- `#resolveFiles` over the store.  A reference argument is
shallow-copied into a fresh cell, and the property loop rewrites the
copy in place. -/
def resolveFilesH : Nat → Store → HVal → Str → Option (Store × HVal)
  | 0, _, _, _ => none
  | _ + 1, σ, .undef, _ => some (σ, .undef)
  | _ + 1, σ, .null, _ => some (σ, .undef)
  | _ + 1, σ, .str s, _ =>
    some (σ ++ [HCell.objC ((List.range s.length).map
      (fun i => ((Nat.repr i).toList, HVal.str ((s.drop i).take 1))))], .ref σ.length)
  | _ + 1, σ, .num _, _ => some (σ ++ [HCell.objC []], .ref σ.length)
  | _ + 1, σ, .bool _, _ => some (σ ++ [HCell.objC []], .ref σ.length)
  | fuel + 1, σ, .ref a, fp =>
    match σ[a]? with
    | none => none
    | some c => do
      let σ' ← propLoopH fuel (σ ++ [c]) σ.length 0 fp
      pure (σ', HVal.ref σ.length)

/-- `for (const propertyKey of Object.keys(result))`: rewrite property
`i` of the copied cell at address `a`, then continue. -/
def propLoopH : Nat → Store → Nat → Nat → Str → Option Store
  | 0, _, _, _, _ => none
  | fuel + 1, σ, a, i, fp =>
    match σ[a]? with
    | none => none
    | some c =>
      if i < cellLen c then do
        match cellVal c i with
        | none => none
        | some v => do
          let r ← resolveValueH fuel σ v fp
          propLoopH fuel (setCellVal r.1 a i r.2) a (i + 1) fp
      else some σ

/-- The `switch (typeof propertyValue)` body over the store. -/
def resolveValueH : Nat → Store → HVal → Str → Option (Store × HVal)
  | 0, _, _, _ => none
  | fuel + 1, σ, .str s, fp =>
    if startsWith "json:".toList s then do
      let r ← readJSONFileAndResolveFilesH fuel σ
        (resolveRelativeFilePath fp (extractFilePath s))
      resolveFilesH fuel r.1 r.2 fp
    else if startsWith "markdown:".toList s then
      (fs (resolveRelativeFilePath fp (extractFilePath s))).map (fun c => (σ, HVal.str c))
    else some (σ, .str s)
  | fuel + 1, σ, .ref a, fp => resolveFilesH fuel σ (.ref a) fp
  | fuel + 1, σ, .null, fp => resolveFilesH fuel σ .null fp
  | _ + 1, σ, v, _ => some (σ, v)

/-- `#readJSONFileAndResolveFiles` over the store: parse allocates
fresh cells, then the tree is resolved against the target path. -/
def readJSONFileAndResolveFilesH : Nat → Store → Str → Option (Store × HVal)
  | 0, _, _ => none
  | fuel + 1, σ, p => do
    let j ← readJSONFile parse fs p
    let r := allocJ σ j
    resolveFilesH fuel r.1 r.2 p

end

end HeapResolver

/-- A two-cell input heap: an object (whose property `n` references the
array cell) and an array. -/
def c10Store : Store :=
  [HCell.objC [("k".toList, HVal.str "v".toList), ("n".toList, HVal.ref 1)],
   HCell.arrC [HVal.num 1]]

/-!
## Declarative matcher vocabulary (for stating the matcher claims)
-/

/-- A regex word character (`\w`, i.e. `[a-zA-Z0-9_]`); the spec's
"non-word character" is the negation. -/
def isWordChar (c : Char) : Bool :=
  decide (('a' ≤ c ∧ c ≤ 'z') ∨ ('A' ≤ c ∧ c ≤ 'Z') ∨ ('0' ≤ c ∧ c ≤ '9') ∨ c = '_')

/-- Position `i` is preceded by the start of text or a boundary-class
character. -/
def leftBoundary (s : Str) (i : Nat) : Bool :=
  i = 0 || ((s[i - 1]?).map boundaryChar).getD false

/-- Position `j` is the end of text or holds a boundary-class
character. -/
def rightBoundary (s : Str) (j : Nat) : Bool :=
  j = s.length || ((s[j]?).map boundaryChar).getD false

/-- The term `t` (one of `terms`) occurs case-insensitively at index
`i` of `s` as a standalone token: bounded on the left by start-of-text
or a boundary character and on the right by end-of-text or a boundary
character. -/
def standaloneOcc (terms : List Str) (s : Str) (i : Nat) (t : Str) : Prop :=
  t ∈ terms ∧ ciPrefixAt t s i = true ∧
    leftBoundary s i = true ∧ rightBoundary s (i + t.length) = true

instance (terms : List Str) (s : Str) (i : Nat) (t : Str) :
    Decidable (standaloneOcc terms s i t) := by
  unfold standaloneOcc
  infer_instance

/-!
## Concrete scenario inputs used by witnesses and counterexamples
-/

/-- File system for the structured-reference scenario: a root file in
`docs/` referencing `./appendix-a.json`, which itself references
`./appendix-b.json`; a decoy `appendix-a.json` also exists at the
process working directory. -/
def c6Fs : Str → Option Str := fun p =>
  if p = "docs/root.json".toList then some "ROOT".toList
  else if p = "docs/appendix-a.json".toList then some "AFILE".toList
  else if p = "appendix-a.json".toList then some "DECOY".toList
  else if p = "docs/appendix-b.json".toList then some "BFILE".toList
  else none

/-- Parse oracle for the same scenario (`JSON.parse` of each file). -/
def c6Parse : Str → Option JTree := fun c =>
  if c = "ROOT".toList then
    some (.obj [("appendix".toList, .str "json:./appendix-a.json".toList)])
  else if c = "AFILE".toList then
    some (.obj [("title".toList, .str "A-local".toList),
      ("next".toList, .str "json:./appendix-b.json".toList)])
  else if c = "DECOY".toList then some (.str "decoy".toList)
  else if c = "BFILE".toList then
    some (.obj [("title".toList, .str "B-content".toList)])
  else none

/-- Glossary whose two entries share a title but have disjoint ids. -/
def c1Raw : RawGlossary :=
  ⟨none, none,
    [⟨"e".toList, "x".toList, none, none⟩,
     ⟨"f".toList, "x".toList, none, none⟩]⟩

/-- Glossary for the conflict-provenance witness: `pack`'s matcher
fires on `pack-skater`'s id. -/
def c1wRaw : RawGlossary :=
  ⟨none, none,
    [⟨"pack".toList, "Pack".toList, none, none⟩,
     ⟨"pack-skater".toList, "Pack Skater".toList, none, none⟩]⟩

/-- Glossary whose titles/aliases do not overlap, but one id contains
the other entry's title as a standalone token. -/
def c7Raw : RawGlossary :=
  ⟨none, none,
    [⟨"a".toList, "x".toList, none, none⟩,
     ⟨"b x".toList, "zzz".toList, none, none⟩]⟩

/-- Conflict-free glossary (no matcher fires on any other entry's id or
aliases). -/
def c7wRaw : RawGlossary :=
  ⟨none, none,
    [⟨"beta".toList, "Beta".toList, none, none⟩,
     ⟨"alpha".toList, "Alpha".toList, none, none⟩]⟩

/-- One-entry glossary for the occurrence-replacement counterexample:
id `pack`, title `Pack`. -/
def c4Raw : RawGlossary :=
  ⟨none, none, [⟨"pack".toList, "Pack".toList, none, none⟩]⟩

/-- Adversarial glossary for the marker-idempotence claim: entry `x`
has the multi-word title `a b c` (its marker's matched text contains
boundary characters), entry `y` has the single-word title `b`. -/
def c8Raw : RawGlossary :=
  ⟨none, none,
    [⟨"x".toList, "a b c".toList, none, none⟩,
     ⟨"y".toList, "b".toList, none, none⟩]⟩

/-- A one-entry glossary (id `x`, title `t`, description `d t`). -/
def c5Glossary : Glossary :=
  parseGlossary ⟨none, none, [⟨"x".toList, "t".toList, none, some "d t".toList⟩]⟩

/-- Compiler state with two documents, the first of which has no
sections (its description fields all contain the term `t`). -/
def c5State : CompilerState :=
  ⟨some "lib t".toList,
    [⟨some "d1".toList, none, some "t one".toList, [], 0⟩,
     ⟨some "d2".toList, none, some "a t b".toList, [], 0⟩],
    c5Glossary.entries⟩

/-!
## Theorems

Helper lemmas first, then one theorem per claim (with its witness or
counterexample where required).
-/

@[simp] theorem PSection.descendantCount_mk (i t d : Option Str)
    (ss : List PSection) (n : Nat) :
    (PSection.mk i t d ss n).descendantCount = n := rfl

@[simp] theorem PSection.sections_mk (i t d : Option Str)
    (ss : List PSection) (n : Nat) :
    (PSection.mk i t d ss n).sections = ss := rfl

@[simp] theorem PSection.description_mk (i t d : Option Str)
    (ss : List PSection) (n : Nat) :
    (PSection.mk i t d ss n).description = d := rfl

theorem foldl_add_dc (l : List PSection) (n : Nat) :
    l.foldl (fun acc s => acc + s.descendantCount) n =
      n + (l.map PSection.descendantCount).sum := by
  induction l generalizing n with
  | nil => simp
  | cons p ps ih => simp [ih, Nat.add_assoc]

theorem foldl_add_dcDoc (l : List PDocument) (n : Nat) :
    l.foldl (fun acc d => acc + d.descendantCount) n =
      n + (l.map PDocument.descendantCount).sum := by
  induction l generalizing n with
  | nil => simp
  | cons p ps ih => simp [ih, Nat.add_assoc]

theorem parseSection_eq (i t d : Option Str) (ss : Option (List RawSection)) :
    parseSection (.mk i t d ss) =
      .mk i t d (parseSectionList (ss.getD []))
        ((parseSectionList (ss.getD [])).length +
          ((parseSectionList (ss.getD [])).map PSection.descendantCount).sum) := by
  cases ss <;> simp [parseSection, foldl_add_dc, Option.getD]

theorem sum_one_add_dc (l : List PSection) :
    (l.map (fun c => 1 + c.descendantCount)).sum =
      l.length + (l.map PSection.descendantCount).sum := by
  induction l with
  | nil => rfl
  | cons p ps ih => simp [ih]; omega

theorem sum_one_add_dcDoc (l : List PDocument) :
    (l.map (fun c => 1 + c.descendantCount)).sum =
      l.length + (l.map PDocument.descendantCount).sum := by
  induction l with
  | nil => rfl
  | cons p ps ih => simp [ih]; omega

mutual

/-- A parsed section's count is its number of strict descendants. -/
theorem parseSection_dc (r : RawSection) :
    (parseSection r).descendantCount =
      strictDescendants (parseSection r) := by
  cases r with
  | mk i t d ss =>
    rw [parseSection_eq]
    have h2 := parseSectionList_size (ss.getD [])
    simp only [strictDescendants, PSection.descendantCount_mk, PSection.sections_mk]
    omega
termination_by sizeOf r
decreasing_by
  rename Option (List RawSection) => o
  cases o <;> simp [Option.getD] <;> omega

/-- Total node count of a parsed forest = length + sum of counts. -/
theorem parseSectionList_size (rs : List RawSection) :
    sectionForestSize (parseSectionList rs) =
      (parseSectionList rs).length +
        ((parseSectionList rs).map PSection.descendantCount).sum := by
  cases rs with
  | nil => simp [parseSectionList, sectionForestSize]
  | cons r rest =>
    have h1 := parseSection_dc r
    have h2 := parseSectionList_size rest
    rw [parseSectionList]
    cases hr : parseSection r with
    | mk i t d ss n =>
      rw [hr] at h1
      simp only [strictDescendants, PSection.descendantCount_mk,
        PSection.sections_mk] at h1
      rw [sectionForestSize]
      simp only [List.length_cons, List.map_cons, List.sum_cons,
        PSection.descendantCount_mk]
      omega
termination_by sizeOf rs
decreasing_by
  all_goals simp
  all_goals omega

end

/-- C2.  Descendant-count law, for every node kind: a parsed section's
`descendantCount` equals `Σ (1 + child count)` over its immediate
children and also its total number of strict descendants (so a leaf
section has count `0`); a parsed document and the documents index node
satisfy the same law over their top-level sections/documents; the
parsed glossary's count is its entry count; and the root count written
for the library is the same law over its three children (documents,
appendices, glossary, the appendices contributing `0`). -/
theorem claim_C2 (r : RawSection) (rd : RawDocument) (rds : List RawDocument)
    (rawG : RawGlossary) (docsDC glossDC : Nat) :
    ((parseSection r).descendantCount =
        ((parseSection r).sections.map (fun c => 1 + c.descendantCount)).sum ∧
      (parseSection r).descendantCount = strictDescendants (parseSection r) ∧
      ((parseSection r).sections = [] → (parseSection r).descendantCount = 0)) ∧
    ((parseDocument rd).descendantCount =
        ((parseDocument rd).sections.map (fun c => 1 + c.descendantCount)).sum) ∧
    ((parseDocuments rds).descendantCount =
        ((parseDocuments rds).documents.map (fun d => 1 + d.descendantCount)).sum) ∧
    ((parseGlossary rawG).descendantCount = (parseGlossary rawG).entries.length) ∧
    (libraryDescendantCount docsDC appendicesDescendantCount glossDC =
        ([docsDC, appendicesDescendantCount, glossDC].map (fun c => 1 + c)).sum) := by
  refine ⟨⟨?_, parseSection_dc r, ?_⟩, ?_, ?_, rfl,
    by simp [libraryDescendantCount, appendicesDescendantCount]; omega⟩
  · cases r with
    | mk i t d ss =>
      rw [parseSection_eq]
      simp only [PSection.descendantCount_mk, PSection.sections_mk, sum_one_add_dc]
  · cases r with
    | mk i t d ss =>
      rw [parseSection_eq]
      simp only [PSection.descendantCount_mk, PSection.sections_mk]
      intro h
      simp [h]
  · simp only [parseDocument, foldl_add_dc, Nat.zero_add, sum_one_add_dc]
  · simp only [parseDocuments, foldl_add_dcDoc, Nat.zero_add, sum_one_add_dcDoc]

/-- Witness for C2: a leaf section (no children) has descendant count
`0`. -/
theorem claim_C2_witness :
    (parseSection (.mk none none none none)).descendantCount = 0 :=
  (claim_C2 (.mk none none none none) ⟨none, none, none, none⟩ []
    ⟨none, none, []⟩ 0 0).1.2.2
    (by rw [parseSection_eq]; simp [parseSectionList])

/-- C9.  A missing or absent root value resolves to the explicit empty
result (`undefined`), not an error: `#resolveFiles` maps both
`undefined` and `null` to `some undefined`, and `#readJSONFile` turns a
file whose content is empty or whitespace-only into `some undefined`
without ever invoking the JSON parser (the statement holds for every
`parse`, including the everywhere-failing one). -/
theorem claim_C9 (parse : Str → Option JTree) (fs : Str → Option Str)
    (fuel : Nat) (fp p content : Str) :
    resolveFiles parse fs (fuel + 1) JTree.undef fp = some JTree.undef ∧
    resolveFiles parse fs (fuel + 1) JTree.null fp = some JTree.undef ∧
    (fs p = some content → jsTrim content = [] →
      readJSONFile parse fs p = some JTree.undef) := by
  refine ⟨rfl, rfl, ?_⟩
  intro h1 h2
  simp [readJSONFile, h1, h2]

/-- Witness for C9 at a concrete whitespace-only file and a parser that
fails on every input. -/
theorem claim_C9_witness :
    resolveFiles (fun _ => none) (fun _ => some "  ".toList) 1 JTree.undef [] =
        some JTree.undef ∧
      readJSONFile (fun _ => none) (fun _ => some "  ".toList) "a.json".toList =
        some JTree.undef :=
  ⟨(claim_C9 (fun _ => none) (fun _ => some "  ".toList) 0 [] "a.json".toList
      "  ".toList).1,
    (claim_C9 (fun _ => none) (fun _ => some "  ".toList) 0 [] "a.json".toList
      "  ".toList).2.2 rfl (by decide)⟩

/-- C6.  A structured-reference scalar `json:P` in a file at path `L`
resolves against `join(dirname(L), P)` — the referencing file's own
directory, not the process working directory — and the loaded tree is
itself recursively resolved (against the target's path) before being
substituted, making resolution transitive: in the concrete scenario,
`docs/root.json` referencing `./appendix-a.json` (which references
`./appendix-b.json`) resolves through `docs/appendix-a.json` and
`docs/appendix-b.json`, ignoring the decoy `appendix-a.json` at the
working directory. -/
theorem claim_C6 (parse : Str → Option JTree) (fs : Str → Option Str)
    (fuel : Nat) (P s fp : Str) :
    (extractFilePath ("json:".toList ++ P) = P) ∧
    (startsWith "json:".toList s = true →
      resolveValue parse fs (fuel + 1) (JTree.str s) fp =
        (readJSONFileAndResolveFiles parse fs fuel
            (joinPath (dirname fp) (extractFilePath s))).bind
          (fun loaded => resolveFiles parse fs fuel loaded fp)) ∧
    (readJSONFileAndResolveFiles parse fs (fuel + 1) fp =
      (readJSONFile parse fs fp).bind
        (fun j => resolveFiles parse fs fuel j fp)) ∧
    (readJSONFileAndResolveFiles c6Parse c6Fs 20 "docs/root.json".toList =
      some (.obj [("appendix".toList,
        .obj [("title".toList, .str "A-local".toList),
          ("next".toList, .obj [("title".toList, .str "B-content".toList)])])])) := by
  refine ⟨?_, ?_, rfl, by rfl⟩
  · show extractFilePath ('j' :: 's' :: 'o' :: 'n' :: ':' :: P) = P
    simp [extractFilePath, List.takeWhile, isAlpha]
  · intro h
    simp only [resolveValue, h, if_true, resolveRelativeFilePath]
    rfl

/-- Witness for C6: the hypothesis-bearing conjunct applied to the
concrete scalar `json:./appendix-b.json` inside `docs/appendix-a.json`. -/
theorem claim_C6_witness :
    resolveValue c6Parse c6Fs 20 (JTree.str "json:./appendix-b.json".toList)
        "docs/appendix-a.json".toList =
      (readJSONFileAndResolveFiles c6Parse c6Fs 19
          (joinPath (dirname "docs/appendix-a.json".toList)
            (extractFilePath "json:./appendix-b.json".toList))).bind
        (fun loaded => resolveFiles c6Parse c6Fs 19 loaded
          "docs/appendix-a.json".toList) :=
  (claim_C6 c6Parse c6Fs 19 [] "json:./appendix-b.json".toList
    "docs/appendix-a.json".toList).2.1 (by decide)

/-- C5 (code bug).  The claim — every description reachable from the
root is rewritten regardless of empty `sections` lists — matches the
documented contract, but the loop body executes `return` instead of
`continue` when a document's `sections` list is empty: in `c5State` the
first document has no sections, so the second document's description
and the glossary entry's description are left uncompiled (the last
conjunct shows the substitution would have changed them), even though
the glossary and document list are non-empty. -/
theorem claim_C5 :
    (deepCompileGlossaryLinks c5State).libraryDescription =
        some "lib $t:x$".toList ∧
    (deepCompileGlossaryLinks c5State).documents.map PDocument.description =
        [some "$t:x$ one".toList, some "a t b".toList] ∧
    (deepCompileGlossaryLinks c5State).glossaryEntries.map PEntry.description =
        [some "d t".toList] ∧
    compileGlossaryLinks c5State.glossaryEntries (some "a t b".toList) =
        some "a $t:x$ b".toList ∧
    compileGlossaryLinks c5State.glossaryEntries (some "d t".toList) =
        some "d $t:x$".toList := by
  refine ⟨by decide, by decide, by decide, by decide, by decide⟩

/-!
### The compiled pattern on metacharacter-free terms (bridge lemmas)

`escape` is the identity on a metacharacter-free term, its parse is a
list of literal atoms, and on all-literal alternatives the general
engine computes exactly what the literal engine computes.
-/

theorem map_congr_mem (f g : α → β) : ∀ (l : List α),
    (∀ a ∈ l, f a = g a) → l.map f = l.map g := by
  intro l
  induction l with
  | nil => intro _; rfl
  | cons a as ih =>
    intro h
    rw [List.map_cons, List.map_cons, h a (List.mem_cons_self _ _),
      ih (fun b hb => h b (List.mem_cons_of_mem _ hb))]

theorem escapeAux_id : ∀ (t : Str) (i : Nat), (∀ c ∈ t, metaChar c = false) →
    escapeAux i t = t := by
  intro t
  induction t with
  | nil => intro i _; rfl
  | cons c cs ih =>
    intro i h
    rw [escapeAux]
    simp [h c (List.mem_cons_self _ _),
      ih (i + 1) (fun d hd => h d (List.mem_cons_of_mem _ hd))]

theorem escape_id (t : Str) (h : ∀ c ∈ t, metaChar c = false) : escape t = t :=
  escapeAux_id t 0 h

theorem parseAtomsAux_lits : ∀ (n : Nat) (src : Str), src.length ≤ n →
    (∀ c ∈ src, metaChar c = false) →
    parseAtomsAux n src = src.map Atom.lit := by
  intro n
  induction n with
  | zero =>
    intro src hlen _
    have hnil : src = [] := List.length_eq_zero.mp (Nat.le_zero.mp hlen)
    subst hnil
    rfl
  | succ n ih =>
    intro src hlen h
    cases src with
    | nil => rfl
    | cons c cs =>
      rw [parseAtomsAux]
      have hcne : ¬ c = '\\' := by
        intro he
        have hc := h c (List.mem_cons_self _ _)
        rw [he] at hc
        exact absurd hc (by decide)
      rw [if_neg hcne]
      have hlen2 : cs.length ≤ n := by
        simp only [List.length_cons] at hlen
        omega
      rw [ih cs hlen2 (fun d hd => h d (List.mem_cons_of_mem _ hd))]
      rfl

/-- On a metacharacter-free term the compiled alternative is the
all-literal one. -/
theorem termAtoms_lit (t : Str) (h : ∀ c ∈ t, metaChar c = false) :
    termAtoms t = t.map Atom.lit := by
  rw [termAtoms, escape_id t h, parseAtoms]
  exact parseAtomsAux_lits t.length t (Nat.le_refl _) h

/-- On a metacharacter-free entry the compiled alternatives are the
all-literal images of the title and aliases. -/
theorem entryAtoms_lit (r : RawEntry)
    (h : ∀ u ∈ rawTerms r, ∀ c ∈ u, metaChar c = false) :
    entryAtoms r = (rawTerms r).map (List.map Atom.lit) := by
  rw [entryAtoms]
  exact map_congr_mem _ _ (rawTerms r) (fun u hu => termAtoms_lit u (h u hu))

theorem matchAtoms_lit (cap : Str) : ∀ (t s : Str) (q : Nat),
    matchAtoms cap (t.map Atom.lit) s q =
      if ciPrefixAt t s q then some (t.length + q) else none := by
  intro t
  induction t with
  | nil => intro s q; simp [matchAtoms, ciPrefixAt]
  | cons c t' ih =>
    intro s q
    rw [List.map_cons, matchAtoms, ciPrefixAt]
    cases hd : s.drop q with
    | nil => rfl
    | cons d rest =>
      dsimp only
      cases hc : ciEq c d with
      | false => simp
      | true =>
        rw [ih s (q + 1)]
        cases hp : ciPrefixAt t' s (q + 1) with
        | false => simp
        | true =>
          simp only [if_true, Bool.true_and, List.length_cons]
          congr 1
          omega

theorem tryTermG3A_lit (cap : Str) : ∀ (ts : List Str) (s : Str) (q : Nat),
    tryTermG3A cap (ts.map (List.map Atom.lit)) s q = tryTermG3 ts s q := by
  intro ts
  induction ts with
  | nil => intro s q; rfl
  | cons t rest ih =>
    intro s q
    rw [List.map_cons, tryTermG3A, tryTermG3, matchAtoms_lit]
    cases hp : ciPrefixAt t s q with
    | false =>
      simp only [Bool.false_eq_true, if_false]
      exact ih s q
    | true =>
      simp only [if_true]
      rw [show t.length + q = q + t.length by omega]
      cases hg : tryG3 s (q + t.length) with
      | some g3 =>
        dsimp only
        rw [Nat.add_sub_cancel_left]
      | none => exact ih s q

theorem tryMatchClassA_lit (ts : List Str) (s : Str) (p : Nat) :
    tryMatchClassA (ts.map (List.map Atom.lit)) s p = tryMatchClass ts s p := by
  rw [tryMatchClassA, tryMatchClass]
  cases hd : s.drop p with
  | nil => rfl
  | cons c rest =>
    dsimp only
    cases hb : boundaryChar c with
    | false => simp
    | true =>
      simp only [if_true]
      rw [tryTermG3A_lit]

theorem tryMatchAtA_lit (ts : List Str) (s : Str) (p : Nat) :
    tryMatchAtA (ts.map (List.map Atom.lit)) s p = tryMatchAt ts s p := by
  rw [tryMatchAtA, tryMatchAt, tryMatchClassA_lit]
  cases hcl : tryMatchClass ts s p with
  | some m => rfl
  | none =>
    dsimp only
    by_cases hp : p = 0
    · rw [if_pos hp, if_pos hp, tryTermG3A_lit]
    · rw [if_neg hp, if_neg hp]

theorem findFromAuxA_lit (ts : List Str) (s : Str) : ∀ (n p : Nat),
    findFromAuxA (ts.map (List.map Atom.lit)) s n p = findFromAux ts s n p := by
  intro n
  induction n with
  | zero => intro p; rfl
  | succ n ih =>
    intro p
    rw [findFromAuxA, findFromAux, tryMatchAtA_lit]
    by_cases hlt : s.length < p
    · simp [hlt]
    · simp only [hlt, if_false]
      cases ht : tryMatchAt ts s p with
      | some m =>
        obtain ⟨g1, g2, g3⟩ := m
        rfl
      | none => exact ih (p + 1)

theorem findFromA_lit (ts : List Str) (s : Str) (p : Nat) :
    findFromA (ts.map (List.map Atom.lit)) s p = findFrom ts s p :=
  findFromAuxA_lit ts s _ p

theorem replaceAllGoAuxA_lit (entryId : Str) (ts : List Str) (s : Str) :
    ∀ (n e i : Nat),
      replaceAllGoAuxA entryId (ts.map (List.map Atom.lit)) s n e i =
        replaceAllGoAux entryId ts s n e i := by
  intro n
  induction n with
  | zero => intro e i; rfl
  | succ n ih =>
    intro e i
    rw [replaceAllGoAuxA, replaceAllGoAux, findFromA_lit]
    cases hf : findFrom ts s i with
    | none => rfl
    | some r =>
      obtain ⟨p, g1, g2, g3⟩ := r
      dsimp only
      congr 1
      by_cases hz : g1 + g2 + g3 = 0
      · rw [if_pos hz, if_pos hz, ih]
      · rw [if_neg hz, if_neg hz, ih]

/-- On all-literal alternatives the compiled replace is the literal
replace. -/
theorem jsReplaceAllA_lit (entryId : Str) (ts : List Str) (s : Str) :
    jsReplaceAllA entryId (ts.map (List.map Atom.lit)) s =
      jsReplaceAll entryId ts s :=
  replaceAllGoAuxA_lit entryId ts s _ 0 0

/-- On all-literal alternatives the compiled matcher is the literal
matcher. -/
theorem matcherMatchesA_lit (ts : List Str) (s : Str) :
    matcherMatchesA (ts.map (List.map Atom.lit)) s = matcherMatches ts s := by
  rw [matcherMatchesA, matcherMatches, findFromA_lit]

/-!
### Search lemmas for the compiled-pattern engine
-/

theorem findFromAuxA_sound (alts : List (List Atom)) (s : Str) :
    ∀ n i p g, findFromAuxA alts s n i = some (p, g) →
      tryMatchAtA alts s p = some g ∧ p ≤ s.length := by
  intro n
  induction n with
  | zero => intro i p g h; cases h
  | succ n ih =>
    intro i p g h
    rw [findFromAuxA] at h
    by_cases hlt : s.length < i
    · simp [hlt] at h
    · simp only [hlt, if_false] at h
      cases ht : tryMatchAtA alts s i with
      | some r =>
        obtain ⟨a, b, c⟩ := r
        rw [ht] at h
        have hm : i = p ∧ (a, b, c) = g := by simpa using h
        obtain ⟨h1, h2⟩ := hm
        subst h1
        rw [ht, h2]
        exact ⟨rfl, by omega⟩
      | none =>
        rw [ht] at h
        exact ih (i + 1) p g h

theorem findFromA_step (alts : List (List Atom)) (s : Str) (p : Nat)
    (h : p ≤ s.length) :
    findFromA alts s p =
      match tryMatchAtA alts s p with
      | some (g1, g2, g3) => some (p, g1, g2, g3)
      | none => findFromA alts s (p + 1) := by
  unfold findFromA
  have h1 : s.length + 1 - p = (s.length - p) + 1 := by omega
  have h2 : s.length + 1 - (p + 1) = s.length - p := by omega
  rw [h1, h2, findFromAuxA]
  simp [Nat.not_lt.mpr h]

theorem findFromA_isSome_of_tryMatchAtA (alts : List (List Atom)) (s : Str)
    (j : Nat) (hj : j ≤ s.length) (h : (tryMatchAtA alts s j).isSome) :
    ∀ p, p ≤ j → (findFromA alts s p).isSome := by
  have H : ∀ n p, j - p = n → p ≤ j → (findFromA alts s p).isSome := by
    intro n
    induction n with
    | zero =>
      intro p hn hp
      have hpj : p = j := by omega
      subst hpj
      rw [findFromA_step alts s p hj]
      cases ht : tryMatchAtA alts s p with
      | some r => obtain ⟨a, b, c⟩ := r; rfl
      | none => rw [ht] at h; cases h
    | succ n ih =>
      intro p hn hp
      rw [findFromA_step alts s p (by omega)]
      cases ht : tryMatchAtA alts s p with
      | some r => obtain ⟨a, b, c⟩ := r; rfl
      | none => exact ih (p + 1) (by omega) (by omega)
  exact fun p hp => H (j - p) p rfl hp

/-!
### Matcher characterisation (C3)
-/

theorem ciPrefixAt_le (t : Str) : ∀ (s : Str) (q : Nat), q ≤ s.length →
    ciPrefixAt t s q = true → q + t.length ≤ s.length := by
  induction t with
  | nil =>
    intro s q hq _
    simpa using hq
  | cons c t' ih =>
    intro s q hq h
    rw [ciPrefixAt] at h
    cases hd : s.drop q with
    | nil => rw [hd] at h; cases h
    | cons d rest =>
      rw [hd] at h
      have h2 := (Bool.and_eq_true _ _).mp h
      have hq1 : q < s.length := by
        by_contra hge
        rw [List.drop_eq_nil_iff.mpr (by omega)] at hd
        cases hd
      have h3 := ih s (q + 1) (by omega) h2.2
      simp only [List.length_cons]
      omega

theorem tryG3_sound (s : Str) (r g3 : Nat) (hr : r ≤ s.length)
    (h : tryG3 s r = some g3) : rightBoundary s r = true := by
  rw [tryG3] at h
  cases hd : s.drop r with
  | nil =>
    have := List.drop_eq_nil_iff.mp hd
    have : r = s.length := by omega
    simp [rightBoundary, this]
  | cons c rest =>
    rw [hd] at h
    by_cases hb : boundaryChar c = true
    · have hc : s[r]? = some c := by
        rw [← List.head?_drop, hd]; rfl
      simp [rightBoundary, hc, hb]
    · simp [hb] at h

theorem tryG3_complete (s : Str) (r : Nat) (h : rightBoundary s r = true) :
    (tryG3 s r).isSome := by
  rw [rightBoundary] at h
  rw [tryG3]
  by_cases he : r = s.length
  · rw [List.drop_eq_nil_iff.mpr (by omega)]
    rfl
  · rw [Bool.or_eq_true] at h
    have h2 : (s[r]?.map boundaryChar).getD false = true := by
      cases h with
      | inl h0 => exact absurd (of_decide_eq_true h0) he
      | inr hx => exact hx
    cases hc : s[r]? with
    | none => rw [hc] at h2; cases h2
    | some c =>
      rw [hc] at h2
      simp at h2
      rw [← List.head?_drop] at hc
      cases hd : s.drop r with
      | nil => rw [hd] at hc; simp at hc
      | cons d rest =>
        rw [hd] at hc
        have hd2 : d = c := by simpa using hc
        subst hd2
        simp [h2]

theorem tryTermG3_sound (s : Str) (q : Nat) : ∀ (terms : List Str) (g2 g3 : Nat),
    tryTermG3 terms s q = some (g2, g3) →
      ∃ t ∈ terms, t.length = g2 ∧ ciPrefixAt t s q = true ∧
        tryG3 s (q + t.length) = some g3 := by
  intro terms
  induction terms with
  | nil => intro g2 g3 h; cases h
  | cons t rest ih =>
    intro g2 g3 h
    rw [tryTermG3] at h
    by_cases hp : ciPrefixAt t s q = true
    · rw [if_pos hp] at h
      cases hg : tryG3 s (q + t.length) with
      | some g3x =>
        rw [hg] at h
        have h1 : t.length = g2 ∧ g3x = g3 := by
          simpa using h
        exact ⟨t, List.mem_cons_self t rest, h1.1, hp, by rw [hg, h1.2]⟩
      | none =>
        rw [hg] at h
        obtain ⟨u, hu, hrest⟩ := ih g2 g3 h
        exact ⟨u, List.mem_cons_of_mem t hu, hrest⟩
    · rw [if_neg hp] at h
      obtain ⟨u, hu, hrest⟩ := ih g2 g3 h
      exact ⟨u, List.mem_cons_of_mem t hu, hrest⟩

theorem tryTermG3_complete (s : Str) (q : Nat) (t : Str) :
    ∀ (terms : List Str), t ∈ terms → ciPrefixAt t s q = true →
      (tryG3 s (q + t.length)).isSome → (tryTermG3 terms s q).isSome := by
  intro terms
  induction terms with
  | nil => intro h; cases h
  | cons u rest ih =>
    intro hmem hp hg
    rw [tryTermG3]
    by_cases hpu : ciPrefixAt u s q = true
    · rw [if_pos hpu]
      cases hgu : tryG3 s (q + u.length) with
      | some _ => rfl
      | none =>
        cases List.mem_cons.mp hmem with
        | inl he => subst he; rw [hgu] at hg; cases hg
        | inr hm => exact ih hm hp hg
    · rw [if_neg hpu]
      cases List.mem_cons.mp hmem with
      | inl he => subst he; exact absurd hp hpu
      | inr hm => exact ih hm hp hg

theorem tryMatchClass_sound (terms : List Str) (s : Str) (p g1 g2 g3 : Nat)
    (h : tryMatchClass terms s p = some (g1, g2, g3)) :
    g1 = 1 ∧ ∃ c, s[p]? = some c ∧ boundaryChar c = true ∧
      tryTermG3 terms s (p + 1) = some (g2, g3) := by
  rw [tryMatchClass] at h
  cases hd : s.drop p with
  | nil => rw [hd] at h; cases h
  | cons c rest =>
    rw [hd] at h
    dsimp only at h
    by_cases hb : boundaryChar c = true
    · rw [if_pos hb] at h
      cases ht : tryTermG3 terms s (p + 1) with
      | some r =>
        obtain ⟨g2x, g3x⟩ := r
        rw [ht] at h
        have h1 : 1 = g1 ∧ g2x = g2 ∧ g3x = g3 := by simpa using h
        obtain ⟨he1, he2, he3⟩ := h1
        subst he2
        subst he3
        refine ⟨he1.symm, c, ?_, hb, rfl⟩
        rw [← List.head?_drop, hd]; rfl
      | none => rw [ht] at h; simp at h
    · rw [if_neg hb] at h; cases h

theorem tryMatchAt_sound (terms : List Str) (s : Str) (p g1 g2 g3 : Nat)
    (hp : p ≤ s.length)
    (h : tryMatchAt terms s p = some (g1, g2, g3)) :
    ∃ t, standaloneOcc terms s (p + g1) t ∧ t.length = g2 := by
  rw [tryMatchAt] at h
  cases hv : tryMatchClass terms s p with
  | some m =>
    rw [hv] at h
    have hm : m = (g1, g2, g3) := by simpa using h
    subst hm
    obtain ⟨hg1, cch, hcc, hbnd, hterm⟩ := tryMatchClass_sound terms s p g1 g2 g3 hv
    subst hg1
    obtain ⟨t, hmem, hlen, hci, hg3⟩ := tryTermG3_sound s (p + 1) terms g2 g3 hterm
    have hplt : p < s.length := by
      by_contra hge
      rw [List.getElem?_eq_none (by omega)] at hcc
      cases hcc
    have hrange := ciPrefixAt_le t s (p + 1) (by omega) hci
    refine ⟨t, ⟨hmem, hci, ?_, tryG3_sound s (p + 1 + t.length) g3 (by omega) hg3⟩, hlen⟩
    simp [leftBoundary, Nat.add_sub_cancel, hcc, hbnd]
  | none =>
    rw [hv] at h
    by_cases hp0 : p = 0
    · subst hp0
      rw [if_pos rfl] at h
      cases ht : tryTermG3 terms s 0 with
      | some r =>
        obtain ⟨g2x, g3x⟩ := r
        rw [ht] at h
        have hm : 0 = g1 ∧ g2x = g2 ∧ g3x = g3 := by simpa using h
        obtain ⟨ha, hb, hc⟩ := hm
        subst ha; subst hb; subst hc
        obtain ⟨t, hmem, hlen, hci, hg3⟩ := tryTermG3_sound s 0 terms g2x g3x ht
        have hrange := ciPrefixAt_le t s 0 (by omega) hci
        refine ⟨t, ⟨hmem, hci, by simp [leftBoundary], ?_⟩, hlen⟩
        exact tryG3_sound s (0 + t.length) g3x (by omega) hg3
      | none => rw [ht] at h; cases h
    · rw [if_neg hp0] at h; cases h

theorem tryMatchAt_complete (terms : List Str) (s : Str) (i : Nat) (t : Str)
    (h : standaloneOcc terms s i t) :
    (tryMatchAt terms s (i - 1)).isSome := by
  obtain ⟨hmem, hci, hlb, hrb⟩ := h
  have hterm : (tryTermG3 terms s i).isSome :=
    tryTermG3_complete s i t terms hmem hci (tryG3_complete s (i + t.length) hrb)
  by_cases hi : i = 0
  · subst hi
    rw [tryMatchAt]
    cases hv : tryMatchClass terms s 0 with
    | some m => rfl
    | none =>
      rw [if_pos rfl]
      cases ht : tryTermG3 terms s 0 with
      | some r => obtain ⟨a, b⟩ := r; rfl
      | none => rw [ht] at hterm; cases hterm
  · have hlb2 : ∃ c, s[i - 1]? = some c ∧ boundaryChar c = true := by
      rw [leftBoundary, Bool.or_eq_true] at hlb
      have hlb2 : (s[i - 1]?.map boundaryChar).getD false = true := by
        cases hlb with
        | inl h0 => exact absurd (of_decide_eq_true h0) hi
        | inr hx => exact hx
      cases hc : s[i - 1]? with
      | none => rw [hc] at hlb2; cases hlb2
      | some c =>
        rw [hc] at hlb2
        simp at hlb2
        exact ⟨c, rfl, hlb2⟩
    obtain ⟨c, hc, hb⟩ := hlb2
    rw [tryMatchAt]
    have hv : ∃ m, tryMatchClass terms s (i - 1) = some m := by
      rw [tryMatchClass]
      rw [← List.head?_drop] at hc
      cases hd : s.drop (i - 1) with
      | nil => rw [hd] at hc; simp at hc
      | cons d rest =>
        rw [hd] at hc
        have hd2 : d = c := by simpa using hc
        subst hd2
        dsimp only
        rw [if_pos hb]
        have hadd : i - 1 + 1 = i := by omega
        rw [hadd]
        cases ht : tryTermG3 terms s i with
        | some r => obtain ⟨a, b⟩ := r; exact ⟨(1, a, b), rfl⟩
        | none => rw [ht] at hterm; cases hterm
    obtain ⟨m, hm⟩ := hv
    rw [hm]
    rfl

theorem findFrom_isSome_of_tryMatchAt (terms : List Str) (s : Str) (j : Nat)
    (hj : j ≤ s.length) (h : (tryMatchAt terms s j).isSome) :
    ∀ p, p ≤ j → (findFrom terms s p).isSome := by
  have H : ∀ n p, j - p = n → p ≤ j → (findFrom terms s p).isSome := by
    intro n
    induction n with
    | zero =>
      intro p hn hp
      have hpj : p = j := by omega
      subst hpj
      rw [findFrom_step terms s p hj]
      cases ht : tryMatchAt terms s p with
      | some r => obtain ⟨a, b, c⟩ := r; rfl
      | none => rw [ht] at h; cases h
    | succ n ih =>
      intro p hn hp
      rw [findFrom_step terms s p (by omega)]
      cases ht : tryMatchAt terms s p with
      | some r => obtain ⟨a, b, c⟩ := r; rfl
      | none => exact ih (p + 1) (by omega) (by omega)
  exact fun p hp => H (j - p) p rfl hp

theorem findFromAux_sound (terms : List Str) (s : Str) :
    ∀ n i p g, findFromAux terms s n i = some (p, g) →
      tryMatchAt terms s p = some g ∧ p ≤ s.length := by
  intro n
  induction n with
  | zero => intro i p g h; cases h
  | succ n ih =>
    intro i p g h
    rw [findFromAux] at h
    by_cases hlt : s.length < i
    · simp [hlt] at h
    · simp only [hlt, if_false] at h
      cases ht : tryMatchAt terms s i with
      | some r =>
        obtain ⟨a, b, c⟩ := r
        rw [ht] at h
        have hm : i = p ∧ (a, b, c) = g := by simpa using h
        obtain ⟨h1, h2⟩ := hm
        subst h1
        rw [ht, h2]
        exact ⟨rfl, by omega⟩
      | none =>
        rw [ht] at h
        exact ih (i + 1) p g h

theorem findFrom_sound (terms : List Str) (s : Str) (p : Nat) (g : Nat × Nat × Nat)
    (h : findFrom terms s 0 = some (p, g)) :
    tryMatchAt terms s p = some g ∧ p ≤ s.length :=
  findFromAux_sound terms s _ 0 p g h

/-- The bounds of a standalone occurrence are in range. -/
theorem standaloneOcc_le (terms : List Str) (s : Str) (i : Nat) (t : Str)
    (h : standaloneOcc terms s i t) : i + t.length ≤ s.length ∧ i ≤ s.length := by
  obtain ⟨hmem, hci, hlb, hrb⟩ := h
  have hi : i ≤ s.length := by
    by_cases hi0 : i = 0
    · omega
    · rw [leftBoundary, Bool.or_eq_true] at hlb
      have hlb2 : (s[i - 1]?.map boundaryChar).getD false = true := by
        cases hlb with
        | inl h0 => exact absurd (of_decide_eq_true h0) hi0
        | inr hx => exact hx
      cases hc : s[i - 1]? with
      | none => rw [hc] at hlb2; cases hlb2
      | some c =>
        obtain ⟨hlt, _⟩ := List.getElem?_eq_some.mp hc
        omega
  have := ciPrefixAt_le t s i hi hci
  omega

/-- C3 (amended twice over: the boundary set is the specific character
class of `#glossaryEntryAdjacentCharacters` — whitespace and
`, . ! - ( ) ' " “ ” ’` — not "any non-word character"; and matching is
literal only for titles/aliases free of pattern metacharacters, because
the `escape` replacer reads the match *offset*, turning a metacharacter
into a `\\<digits>` backreference/octal escape rather than an escaped
literal).  For an entry whose title and aliases are metacharacter-free
— and ASCII, where the `i`-flag model is exact — the compiled matcher
fires on a text exactly when the title or an alias occurs in it
case-insensitively and literally as a standalone token, bounded on each
side by a boundary-class character or by the start/end of the text, and
whatever occurrence a fresh search reports is such a standalone
token. -/
theorem claim_C3 (E : RawEntry) (s : Str)
    (hmeta : ∀ u ∈ rawTerms E, ∀ c ∈ u, metaChar c = false)
    (hascii : ∀ u ∈ rawTerms E, asciiStr u = true) :
    (∀ p g1 g2 g3, findFromA (entryAtoms E) s 0 = some (p, g1, g2, g3) →
      ∃ t, standaloneOcc (rawTerms E) s (p + g1) t ∧ t.length = g2) ∧
    (matcherMatchesA (entryAtoms E) s = true ↔
      ∃ i t, standaloneOcc (rawTerms E) s i t) := by
  rw [entryAtoms_lit E hmeta]
  constructor
  · intro p g1 g2 g3 h
    rw [findFromA_lit] at h
    have ht := findFrom_sound (rawTerms E) s p (g1, g2, g3) h
    exact tryMatchAt_sound (rawTerms E) s p g1 g2 g3 ht.2 ht.1
  · rw [matcherMatchesA_lit]
    constructor
    · intro h
      rw [matcherMatches] at h
      cases hf : findFrom (rawTerms E) s 0 with
      | none => rw [hf] at h; cases h
      | some r =>
        obtain ⟨p, g1, g2, g3⟩ := r
        have ht := findFrom_sound (rawTerms E) s p (g1, g2, g3) hf
        obtain ⟨t, hocc, hlen⟩ :=
          tryMatchAt_sound (rawTerms E) s p g1 g2 g3 ht.2 ht.1
        exact ⟨p + g1, t, hocc⟩
    · intro h
      obtain ⟨i, t, hocc⟩ := h
      have hcmp := tryMatchAt_complete (rawTerms E) s i t hocc
      have hle := standaloneOcc_le (rawTerms E) s i t hocc
      rw [matcherMatches]
      exact findFrom_isSome_of_tryMatchAt (rawTerms E) s (i - 1) (by omega) hcmp 0
        (by omega)

/-- Witness for C3: the matcher of entry `pack` (title `Pack`,
metacharacter-free and ASCII) fires on `"a Pack b"` via the standalone
occurrence at index 2. -/
theorem claim_C3_witness :
    matcherMatchesA (entryAtoms ⟨"pack".toList, "Pack".toList, none, none⟩)
      "a Pack b".toList = true :=
  (claim_C3 ⟨"pack".toList, "Pack".toList, none, none⟩ "a Pack b".toList
    (by decide) (by decide)).2.mpr ⟨2, "Pack".toList, by decide⟩

/-- Counterexample to C3 as stated, in both directions the claim is
wrong: (i) with title `Pack` and text `"Pack?"` the occurrence of
`Pack` is bounded by start-of-text and the non-word character `?`, yet
`?` is not in the boundary class and the matcher does not fire;
(ii) escaping is not literal — for the title `b:y$`, `escape` emits
`b:y\\3` (the replacer's `match[1]` is the offset `3`, not the matched
`$`), which the pattern reads as a backreference to the not-yet-matched
group 3, matching the empty string, so the compiled matcher fires on
the text `b:y`, which does not contain the title at all. -/
theorem claim_C3_counterexample :
    (ciPrefixAt "Pack".toList "Pack?".toList 0 = true ∧
      isWordChar '?' = false ∧
      matcherMatchesA (entryAtoms ⟨"pack".toList, "Pack".toList, none, none⟩)
        "Pack?".toList = false) ∧
    (escape "b:y$".toList = "b:y\\3".toList ∧
      termAtoms "b:y$".toList =
        [Atom.lit 'b', Atom.lit ':', Atom.lit 'y', Atom.bref 3] ∧
      matcherMatchesA (entryAtoms ⟨"a".toList, "b:y$".toList, none, none⟩)
        "b:y".toList = true) := by decide

/-!
### Marker idempotence (C8)
-/

/-- `i`-flag folding fixes `$`: only `$` folds to `$`. -/
theorem ciEq_dollar (c : Char) (h : ciEq c '$' = true) : c = '$' := by
  rw [ciEq] at h
  have hlow : jsLower '$' = '$' := by decide
  rw [hlow] at h
  rw [jsLower] at h
  by_cases hc : 'A' ≤ c ∧ c ≤ 'Z'
  · rw [if_pos hc] at h
    exfalso
    obtain ⟨h1, h2⟩ := hc
    rw [Char.le_def] at h1 h2
    have hn1 : 65 ≤ c.toNat := h1
    have hn2 : c.toNat ≤ 90 := h2
    have hval : (Char.ofNat (c.toNat + 32)).toNat = c.toNat + 32 := by
      unfold Char.ofNat
      rw [dif_pos]
      · rfl
      · left; omega
    have h36 : (Char.ofNat (c.toNat + 32)).toNat = 36 := by
      rw [of_decide_eq_true h]
      rfl
    omega
  · rw [if_neg hc] at h
    exact of_decide_eq_true h

/-- No match can start where the first alternative of group 1 needs a
boundary character and the string has none. -/
theorem tryMatchClass_none (terms : List Str) (s : Str) (j : Nat)
    (hs : ∀ c ∈ s, boundaryChar c = false) :
    tryMatchClass terms s j = none := by
  rw [tryMatchClass]
  cases hd : s.drop j with
  | nil => rfl
  | cons c rest =>
    have hc : c ∈ s := by
      have : c ∈ s.drop j := by rw [hd]; exact List.mem_cons_self _ _
      exact List.mem_of_mem_drop this
    simp [hs c hc]

/-- No `$`-free term is a case-insensitive prefix of a string starting
with `$`. -/
theorem tryTermG3_dollar_none (rest : Str) :
    ∀ (terms : List Str), (∀ u ∈ terms, '$' ∉ u) →
      tryTermG3 terms ('$' :: rest) 0 = none := by
  intro terms
  induction terms with
  | nil => intro _; rfl
  | cons u ts ih =>
    intro hfree
    rw [tryTermG3]
    cases u with
    | nil =>
      have hcp : ciPrefixAt ([] : Str) ('$' :: rest) 0 = true := rfl
      rw [if_pos hcp]
      have hg : tryG3 ('$' :: rest) (0 + ([] : Str).length) = none := by
        have : boundaryChar '$' = false := by decide
        simp [tryG3, this]
      rw [hg]
      exact ih (fun v hv => hfree v (List.mem_cons_of_mem _ hv))
    | cons c u' =>
      have hciEq : ciEq c '$' = false := by
        by_contra hne
        have htr : ciEq c '$' = true := by
          cases hx : ciEq c '$' with
          | true => rfl
          | false => exact absurd hx hne
        have hceq := ciEq_dollar c htr
        refine hfree (c :: u') (List.mem_cons_self _ _) ?_
        rw [hceq]
        exact List.mem_cons_self _ _
      have hci : ciPrefixAt (c :: u') ('$' :: rest) 0 = false := by
        rw [ciPrefixAt]
        simp [hciEq]
      rw [if_neg (by simp [hci])]
      exact ih (fun v hv => hfree v (List.mem_cons_of_mem _ hv))

/-- A fresh search fails everywhere when every anchored attempt does. -/
theorem findFrom_none_of_all (terms : List Str) (s : Str)
    (h : ∀ j, tryMatchAt terms s j = none) : ∀ n p, findFromAux terms s n p = none := by
  intro n
  induction n with
  | zero => intro p; rfl
  | succ n ih =>
    intro p
    rw [findFromAux]
    by_cases hlt : s.length < p
    · simp [hlt]
    · simp only [hlt, if_false]
      rw [h p]
      exact ih (p + 1)

/-- A string the matcher cannot fire on is returned unchanged by the
global replace. -/
theorem jsReplaceAll_id_of_none (entryId : Str) (terms : List Str) (s : Str)
    (h : findFrom terms s 0 = none) : jsReplaceAll entryId terms s = s := by
  rw [jsReplaceAll, replaceAllGoAux, h]
  exact List.drop_zero s

/-- C8 (amended: restricted to glossaries whose titles and aliases are
metacharacter-free — their compiled alternatives are then all-literal
and, since `$` is a metacharacter, `$`-free — and ASCII, applied to
markers whose matched text and entry id contain no boundary-class
characters).  Under those conditions link compilation is idempotent on
marker syntax: a field that is exactly one cross-reference marker
`$t:id$` is left unchanged by every entry's substitution pass, hence by
the whole link compiler.  Without the restriction on the marker
interior the property fails (see the counterexample): the marker of a
multi-word title contains boundary characters, so another entry's term
can satisfy a boundary-plus-literal match inside the marker's matched
text. -/
theorem claim_C8 (entries : List PEntry) (t eid : Str)
    (ht : ∀ c ∈ t, boundaryChar c = false)
    (hid : ∀ c ∈ eid, boundaryChar c = false)
    (hterms : ∀ E ∈ entries, ∃ ts : List Str,
      E.terms = ts.map (List.map Atom.lit) ∧
        ∀ u ∈ ts, '$' ∉ u ∧ asciiStr u = true) :
    (∀ E ∈ entries,
      jsReplaceAllA E.id E.terms (markerRepl eid [] t []) =
        markerRepl eid [] t []) ∧
    (entries ≠ [] →
      compileGlossaryLinks entries (some (markerRepl eid [] t [])) =
        some (markerRepl eid [] t [])) := by
  have hM : ∀ c ∈ markerRepl eid [] t [], boundaryChar c = false := by
    intro c hcm
    have hsplit : c = '$' ∨ c ∈ t ∨ c = ':' ∨ c ∈ eid := by
      rw [markerRepl] at hcm
      simp only [List.mem_append, List.mem_cons, List.nil_append,
        List.not_mem_nil, or_false] at hcm
      tauto
    rcases hsplit with h | h | h | h
    · rw [h]; decide
    · exact ht c h
    · rw [h]; decide
    · exact hid c h
  have hnone : ∀ (terms : List Str), (∀ u ∈ terms, '$' ∉ u) →
      findFrom terms (markerRepl eid [] t []) 0 = none := by
    intro terms hfree
    have hall : ∀ j, tryMatchAt terms (markerRepl eid [] t []) j = none := by
      intro j
      rw [tryMatchAt, tryMatchClass_none terms _ j hM]
      by_cases hj : j = 0
      · subst hj
        rw [if_pos rfl]
        have hz : tryTermG3 terms (markerRepl eid [] t []) 0 = none := by
          have hMeq : markerRepl eid [] t [] =
              '$' :: (t ++ ':' :: eid ++ ['$']) := by
            rw [markerRepl]
            rfl
          rw [hMeq]
          exact tryTermG3_dollar_none _ terms hfree
        rw [hz]
      · rw [if_neg hj]
    exact findFrom_none_of_all terms _ hall _ 0
  have hone : ∀ E ∈ entries,
      jsReplaceAllA E.id E.terms (markerRepl eid [] t []) =
        markerRepl eid [] t [] := by
    intro E hE
    obtain ⟨ts, hts, hfree⟩ := hterms E hE
    rw [hts, jsReplaceAllA_lit]
    exact jsReplaceAll_id_of_none E.id ts _
      (hnone ts (fun u hu => (hfree u hu).1))
  refine ⟨hone, ?_⟩
  intro hne
  rw [compileGlossaryLinks]
  rw [if_neg (by simpa using hne)]
  congr 1
  have hfold : ∀ l : List PEntry,
      (∀ E ∈ l, jsReplaceAllA E.id E.terms (markerRepl eid [] t []) =
      markerRepl eid [] t []) →
      l.foldl (fun r e => jsReplaceAllA e.id e.terms r) (markerRepl eid [] t []) =
        markerRepl eid [] t [] := by
    intro l
    induction l with
    | nil => intro _; rfl
    | cons E es ih =>
      intro hl
      rw [List.foldl_cons, hl E (List.mem_cons_self _ _)]
      exact ih (fun F hF => hl F (List.mem_cons_of_mem _ hF))
  exact hfold entries hone

/-- Witness for C8: a single metacharacter-free, boundary-free entry
leaves its own marker untouched on a second pass. -/
theorem claim_C8_witness :
    compileGlossaryLinks
        (parseGlossary ⟨none, none, [⟨"x".toList, "pack".toList, none, none⟩]⟩).entries
        (some (markerRepl "x".toList [] "pack".toList [])) =
      some (markerRepl "x".toList [] "pack".toList []) :=
  (claim_C8
    (parseGlossary ⟨none, none, [⟨"x".toList, "pack".toList, none, none⟩]⟩).entries
    "pack".toList "x".toList (by decide) (by decide)
    (by
      intro E hE
      have he : (parseGlossary ⟨none, none,
          [⟨"x".toList, "pack".toList, none, none⟩]⟩).entries =
          [⟨"x".toList, "pack".toList, none, none, 0,
            ["pack".toList].map (List.map Atom.lit), []⟩] := by decide
      rw [he] at hE
      rw [List.mem_singleton.mp hE]
      exact ⟨["pack".toList], rfl, by decide⟩)).2 (by decide)

/-- Counterexample to C8 as stated: entry `x` has the multi-word title
`a b c`, entry `y` the single-word title `b` (both metacharacter-free,
so their compiled alternatives really are literal).  The field
`$a b c:x$` — exactly the marker `x`'s substitution produces for its
matched title, per the first conjunct — is pure marker syntax, yet
applying the per-field substitution of the two-entry glossary to it
rewrites the marker interior to `$a $b:y$ c:x$`: `y`'s term `b`
satisfies a boundary-plus-literal match between the spaces of the
matched text. -/
theorem claim_C8_counterexample :
    compileGlossaryLinks
        (parseGlossary ⟨none, none,
          [⟨"x".toList, "a b c".toList, none, none⟩]⟩).entries
        (some "a b c".toList) =
      some (markerRepl "x".toList [] "a b c".toList []) ∧
    markerRepl "x".toList [] "a b c".toList [] = "$a b c:x$".toList ∧
    compileGlossaryLinks (parseGlossary c8Raw).entries
        (some "$a b c:x$".toList) =
      some "$a $b:y$ c:x$".toList := by decide

/-!
### Per-entry replacement (C4)
-/

theorem jsReplaceAll_eq_replaceFrom (entryId : Str) (terms : List Str) (s : Str) :
    jsReplaceAll entryId terms s = replaceFrom entryId terms s 0 0 := rfl

/-- One step of the replace loop, fuel-free. -/
theorem replaceFrom_step (entryId : Str) (terms : List Str) (s : Str) (e i : Nat) :
    replaceFrom entryId terms s e i =
      match findFrom terms s i with
      | none => s.drop e
      | some (p, g1, g2, g3) =>
        (s.take p).drop e ++
          markerRepl entryId ((s.drop p).take g1) ((s.drop (p + g1)).take g2)
            ((s.drop (p + g1 + g2)).take g3) ++
          (if g1 + g2 + g3 = 0 then replaceFrom entryId terms s p (p + 1)
           else replaceFrom entryId terms s (p + (g1 + g2 + g3)) (p + (g1 + g2 + g3))) := by
  cases hf : findFrom terms s i with
  | none =>
    rw [replaceFrom]
    cases hn : s.length + 1 - i with
    | zero => rfl
    | succ n => rw [replaceAllGoAux, hf]
  | some r =>
    obtain ⟨p, g1, g2, g3⟩ := r
    have hle := findFrom_le terms s i p (g1, g2, g3) hf
    rw [replaceFrom]
    have hn : s.length + 1 - i = (s.length - i) + 1 := by omega
    rw [hn, replaceAllGoAux, hf]
    dsimp only
    congr 1
    by_cases hz : g1 + g2 + g3 = 0
    · rw [if_pos hz, if_pos hz, replaceFrom]
      exact replaceAllGoAux_adequate entryId terms s (s.length - i)
        (s.length + 1 - (p + 1)) p (p + 1) (by omega) (by omega)
    · rw [if_neg hz, if_neg hz, replaceFrom]
      exact replaceAllGoAux_adequate entryId terms s (s.length - i)
        (s.length + 1 - (p + (g1 + g2 + g3))) (p + (g1 + g2 + g3))
        (p + (g1 + g2 + g3)) (by omega) (by omega)

theorem ciPrefixAt_drop_eq (t : Str) : ∀ (s : Str) (q : Nat),
    ciPrefixAt t s q = ciPrefixAt t (s.drop q) 0 := by
  induction t with
  | nil => intro s q; rfl
  | cons c t' ih =>
    intro s q
    rw [ciPrefixAt, ciPrefixAt]
    rw [List.drop_zero]
    cases hd : s.drop q with
    | nil => rfl
    | cons d rest =>
      have h1 : s.drop (q + 1) = rest := by
        have : s.drop (q + 1) = (s.drop q).drop 1 := by
          rw [List.drop_drop]
        rw [this, hd]
        rfl
      have h2 : (d :: rest).drop (0 + 1) = rest := rfl
      rw [ih s (q + 1), ih (d :: rest) (0 + 1), h1, h2]

theorem ciPrefixAt_append_self (t : Str) : ∀ (u : Str),
    ciPrefixAt t (t ++ u) 0 = true := by
  induction t with
  | nil => intro u; rfl
  | cons c t' ih =>
    intro u
    rw [ciPrefixAt]
    have hd : (c :: t' ++ u).drop 0 = c :: (t' ++ u) := rfl
    rw [hd]
    dsimp only
    have hce : ciEq c c = true := by simp [ciEq]
    rw [hce]
    rw [ciPrefixAt_drop_eq]
    have hdd : (c :: t' ++ u).drop (0 + 1) = t' ++ u := rfl
    rw [hdd]
    rw [ih u]
    rfl

/-- Beyond an index after which the string has no boundary characters,
no anchored attempt succeeds. -/
theorem tryMatchAt_none_from (terms : List Str) (s : Str) (j0 : Nat) (hj0 : 0 < j0)
    (hs : ∀ c ∈ s.drop j0, boundaryChar c = false) :
    ∀ j, j0 ≤ j → tryMatchAt terms s j = none := by
  intro j hj
  rw [tryMatchAt]
  have hclass : tryMatchClass terms s j = none := by
    rw [tryMatchClass]
    cases hd : s.drop j with
    | nil => rfl
    | cons c rest =>
      have hcmem : c ∈ s.drop j0 := by
        have h1 : s.drop j = (s.drop j0).drop (j - j0) := by
          rw [List.drop_drop]
          congr 1
          omega
        have h2 : c ∈ s.drop j := by rw [hd]; exact List.mem_cons_self _ _
        rw [h1] at h2
        exact List.mem_of_mem_drop h2
      simp [hs c hcmem]
  rw [hclass]
  rw [if_neg (by omega)]

theorem findFromAux_none_from (terms : List Str) (s : Str) (i0 : Nat)
    (h : ∀ j, i0 ≤ j → tryMatchAt terms s j = none) :
    ∀ n i, i0 ≤ i → findFromAux terms s n i = none := by
  intro n
  induction n with
  | zero => intro i _; rfl
  | succ n ih =>
    intro i hi
    rw [findFromAux]
    by_cases hlt : s.length < i
    · simp [hlt]
    · simp only [hlt, if_false]
      rw [h i hi]
      exact ih (i + 1) (by omega)

theorem findFrom_none_from (terms : List Str) (s : Str) (i0 : Nat)
    (h : ∀ j, i0 ≤ j → tryMatchAt terms s j = none) (i : Nat) (hi : i0 ≤ i) :
    findFrom terms s i = none :=
  findFromAux_none_from terms s i0 h _ i hi

/-- The leading anchored match on `t ++ b :: u` when `t` is
boundary-free and `b` is a boundary character: group 1 empty (the `^`
anchor), group 2 the full leading `t`, group 3 consuming `b`. -/
theorem tryMatchAt_lead (t : Str) (b : Char) (u : Str)
    (hne : t ≠ []) (htb : ∀ c ∈ t, boundaryChar c = false)
    (hb : boundaryChar b = true) :
    tryMatchAt [t] (t ++ b :: u) 0 = some (0, t.length, 1) := by
  rw [tryMatchAt]
  have hclass : tryMatchClass [t] (t ++ b :: u) 0 = none := by
    rw [tryMatchClass]
    cases ht : t with
    | nil => exact absurd ht hne
    | cons c t' =>
      have hd : (c :: t' ++ b :: u : Str).drop 0 = c :: (t' ++ b :: u) := rfl
      rw [hd]
      dsimp only
      have hbc : boundaryChar c = false := htb c (by rw [ht]; exact List.mem_cons_self _ _)
      simp [hbc]
  rw [hclass]
  rw [if_pos rfl]
  have hterm : tryTermG3 [t] (t ++ b :: u) 0 = some (t.length, 1) := by
    rw [tryTermG3]
    rw [if_pos (ciPrefixAt_append_self t (b :: u))]
    have hg3 : tryG3 (t ++ b :: u) (0 + t.length) = some 1 := by
      rw [tryG3]
      have hdl : (t ++ b :: u).drop (0 + t.length) = b :: u := by
        rw [Nat.zero_add]
        exact List.drop_left t (b :: u)
      rw [hdl]
      dsimp only
      rw [if_pos hb]
    rw [hg3]
  rw [hterm]

/-- The leading anchored match on the bare term `t` when `t` is
boundary-free: group 1 empty (the `^` anchor), group 2 all of `t`,
group 3 empty (the `$` anchor). -/
theorem tryMatchAt_bare (t : Str) (hne : t ≠ [])
    (htb : ∀ c ∈ t, boundaryChar c = false) :
    tryMatchAt [t] t 0 = some (0, t.length, 0) := by
  rw [tryMatchAt]
  have hclass : tryMatchClass [t] t 0 = none := by
    rw [tryMatchClass]
    cases hT : t with
    | nil => exact absurd hT hne
    | cons c t' =>
      simp [tryMatchClass, htb c (by rw [hT]; exact List.mem_cons_self _ _)]
  rw [hclass, if_pos rfl]
  have hterm : tryTermG3 [t] t 0 = some (t.length, 0) := by
    rw [tryTermG3]
    have hci : ciPrefixAt t t 0 = true := by
      have hx := ciPrefixAt_append_self t []
      rwa [List.append_nil] at hx
    rw [if_pos hci]
    have hg3 : tryG3 t (0 + t.length) = some 0 := by
      rw [tryG3]
      have hd : t.drop (0 + t.length) = [] := by
        rw [List.drop_eq_nil_iff]
        simp
      rw [hd]
    rw [hg3]
  rw [hterm]

/-- C4 (amended: for a single-word — boundary-free — metacharacter-free
ASCII title, verified as exact output equalities on the canonical
shapes; and of two standalone occurrences separated by a single
boundary character only the first is linked, because the match consumes
the shared boundary character as its third group, leaving the second
occurrence without a leading boundary).  For entry id `entryId` and
title `t`: (i) the text that is exactly the title compiles to exactly
one marker wrapping exactly `t`; (ii) `b₁ t b₂` compiles to the same
text with the single occurrence replaced by one marker wrapping exactly
`t` and both boundary characters preserved in place; (iii) `t b₁ b₂ t`
compiles to two markers, each wrapping exactly `t`, with both boundary
characters preserved between them; (iv) `t b t` compiles to one marker
(the trailing boundary `b` consumed into group 3 but preserved in the
output) followed by the unlinked second occurrence of `t`. -/
theorem claim_C4 (entryId t : Str) (b b1 b2 : Char)
    (hne : t ≠ []) (htb : ∀ c ∈ t, boundaryChar c = false)
    (hmeta : ∀ c ∈ t, metaChar c = false) (hascii : asciiStr t = true)
    (hb : boundaryChar b = true) (hb1 : boundaryChar b1 = true)
    (hb2 : boundaryChar b2 = true) :
    (jsReplaceAllA entryId [termAtoms t] t = markerRepl entryId [] t []) ∧
    (jsReplaceAllA entryId [termAtoms t] (b1 :: t ++ [b2]) =
      b1 :: markerRepl entryId [] t [] ++ [b2]) ∧
    (jsReplaceAllA entryId [termAtoms t] (t ++ b1 :: b2 :: t) =
      markerRepl entryId [] t [b1] ++ markerRepl entryId [b2] t []) ∧
    (jsReplaceAllA entryId [termAtoms t] (t ++ b :: t) =
      markerRepl entryId [] t [b] ++ t) := by
  have hlit : ([termAtoms t] : List (List Atom)) = [t].map (List.map Atom.lit) := by
    rw [termAtoms_lit t hmeta]
    rfl
  simp only [hlit, jsReplaceAllA_lit]
  have hlen0 : 0 < t.length := by
    cases t with
    | nil => exact absurd rfl hne
    | cons c cs => simp
  refine ⟨?_, ?_, ?_, ?_⟩
  · -- (i) the bare title
    have hfind0 : findFrom [t] t 0 = some (0, 0, t.length, 0) := by
      rw [findFrom_step _ _ 0 (by simp)]
      rw [tryMatchAt_bare t hne htb]
    have hfindRest : findFrom [t] t (0 + (0 + t.length + 0)) = none := by
      apply findFrom_none_from [t] _ t.length
      · intro j hj
        apply tryMatchAt_none_from [t] _ t.length (by omega) _ j hj
        rw [List.drop_length]
        intro c hc
        cases hc
      · omega
    rw [jsReplaceAll_eq_replaceFrom, replaceFrom_step, hfind0]
    dsimp only
    rw [if_neg (by omega)]
    rw [replaceFrom_step, hfindRest]
    have e1 : (t.take 0).drop 0 = ([] : Str) := rfl
    have e2 : (t.drop 0).take 0 = ([] : Str) := rfl
    have e3 : (t.drop (0 + 0)).take t.length = t := by
      simp
    have e4 : (t.drop (0 + 0 + t.length)).take 0 = ([] : Str) := List.take_zero _
    have e5 : t.drop (0 + (0 + t.length + 0)) = ([] : Str) := by
      simp
    rw [e1, e2, e3, e4, e5]
    simp [markerRepl]
  · -- (ii) one occurrence enclosed by boundary characters
    have hm0 : tryMatchAt [t] (b1 :: t ++ [b2]) 0 = some (1, t.length, 1) := by
      rw [tryMatchAt]
      have hclass : tryMatchClass [t] (b1 :: t ++ [b2]) 0 =
          some (1, t.length, 1) := by
        rw [tryMatchClass]
        have hd0 : ((b1 :: t ++ [b2] : Str)).drop 0 = b1 :: (t ++ [b2]) := rfl
        rw [hd0]
        dsimp only
        rw [if_pos hb1]
        have hterm : tryTermG3 [t] (b1 :: t ++ [b2]) (0 + 1) =
            some (t.length, 1) := by
          rw [tryTermG3]
          have hci : ciPrefixAt t (b1 :: t ++ [b2]) (0 + 1) = true := by
            rw [ciPrefixAt_drop_eq]
            have hd : (b1 :: t ++ [b2] : Str).drop (0 + 1) = t ++ [b2] := rfl
            rw [hd]
            exact ciPrefixAt_append_self t [b2]
          rw [if_pos hci]
          have hg3 : tryG3 (b1 :: t ++ [b2]) (0 + 1 + t.length) = some 1 := by
            rw [tryG3]
            have hd : (b1 :: t ++ [b2] : Str).drop (0 + 1 + t.length) = [b2] := by
              rw [show (0 : Nat) + 1 + t.length = t.length + 1 by omega]
              exact List.drop_left (b1 :: t) [b2]
            rw [hd]
            dsimp only
            rw [if_pos hb2]
          rw [hg3]
        rw [hterm]
      rw [hclass]
    have hfind0 : findFrom [t] (b1 :: t ++ [b2]) 0 = some (0, 1, t.length, 1) := by
      rw [findFrom_step _ _ 0 (by simp), hm0]
    have hfindRest : findFrom [t] (b1 :: t ++ [b2]) (0 + (1 + t.length + 1)) =
        none := by
      apply findFrom_none_from [t] _ (t.length + 2)
      · intro j hj
        apply tryMatchAt_none_from [t] _ (t.length + 2) (by omega) _ j hj
        have hd : (b1 :: t ++ [b2] : Str).drop (t.length + 2) = [] := by
          rw [List.drop_eq_nil_iff]
          simp
        rw [hd]
        intro c hc
        cases hc
      · omega
    rw [jsReplaceAll_eq_replaceFrom, replaceFrom_step, hfind0]
    dsimp only
    rw [if_neg (by omega)]
    rw [replaceFrom_step, hfindRest]
    have e1 : ((b1 :: t ++ [b2] : Str).take 0).drop 0 = ([] : Str) := rfl
    have e2 : ((b1 :: t ++ [b2] : Str).drop 0).take 1 = [b1] := rfl
    have e3 : ((b1 :: t ++ [b2] : Str).drop (0 + 1)).take t.length = t := by
      have hd : (b1 :: t ++ [b2] : Str).drop (0 + 1) = t ++ [b2] := rfl
      rw [hd]
      exact List.take_left t [b2]
    have e4 : ((b1 :: t ++ [b2] : Str).drop (0 + 1 + t.length)).take 1 = [b2] := by
      have hd : (b1 :: t ++ [b2] : Str).drop (0 + 1 + t.length) = [b2] := by
        rw [show (0 : Nat) + 1 + t.length = t.length + 1 by omega]
        exact List.drop_left (b1 :: t) [b2]
      rw [hd]
      rfl
    have e5 : (b1 :: t ++ [b2] : Str).drop (0 + (1 + t.length + 1)) = [] := by
      rw [List.drop_eq_nil_iff]
      simp
      omega
    rw [e1, e2, e3, e4, e5]
    simp [markerRepl]
  · -- (iii) two occurrences, two boundary characters between
    have hfind0 : findFrom [t] (t ++ b1 :: b2 :: t) 0 = some (0, 0, t.length, 1) := by
      rw [findFrom_step _ _ 0 (by simp)]
      rw [tryMatchAt_lead t b1 (b2 :: t) hne htb hb1]
    have hlen : (t ++ b1 :: b2 :: t).length = 2 * t.length + 2 := by
      simp
      omega
    have hdrop1 : (t ++ b1 :: b2 :: t).drop (t.length + 1) = b2 :: t := by
      have : t.length + 1 = t.length + 1 := rfl
      rw [show t.length + 1 = t.length + 1 from rfl, List.drop_append 1]
      rfl
    have hdrop2 : (t ++ b1 :: b2 :: t).drop (t.length + 2) = t := by
      rw [List.drop_append 2]
      rfl
    have hdrop3 : (t ++ b1 :: b2 :: t).drop (t.length + 2 + t.length) = [] := by
      rw [List.drop_eq_nil_iff]
      simp
      omega
    have hmid : tryMatchAt [t] (t ++ b1 :: b2 :: t) (t.length + 1) =
        some (1, t.length, 0) := by
      rw [tryMatchAt]
      have hclass : tryMatchClass [t] (t ++ b1 :: b2 :: t) (t.length + 1) =
          some (1, t.length, 0) := by
        rw [tryMatchClass, hdrop1]
        dsimp only
        rw [if_pos hb2]
        have hterm : tryTermG3 [t] (t ++ b1 :: b2 :: t) (t.length + 1 + 1) =
            some (t.length, 0) := by
          rw [tryTermG3]
          have hci : ciPrefixAt t (t ++ b1 :: b2 :: t) (t.length + 1 + 1) = true := by
            rw [ciPrefixAt_drop_eq]
            have : t.length + 1 + 1 = t.length + 2 := by omega
            rw [this, hdrop2]
            have := ciPrefixAt_append_self t []
            rwa [List.append_nil] at this
          rw [if_pos hci]
          have hg3 : tryG3 (t ++ b1 :: b2 :: t) (t.length + 1 + 1 + t.length) =
              some 0 := by
            rw [tryG3]
            have harith : t.length + 1 + 1 + t.length = t.length + 2 + t.length := by
              omega
            rw [harith, hdrop3]
          rw [hg3]
        rw [hterm]
      rw [hclass]
    have hfindMid : findFrom [t] (t ++ b1 :: b2 :: t) (t.length + 1) =
        some (t.length + 1, 1, t.length, 0) := by
      rw [findFrom_step _ _ _ (by simp)]
      rw [hmid]
    have hfindEnd : findFrom [t] (t ++ b1 :: b2 :: t) (t.length + 1 + (1 + t.length + 0)) =
        none := by
      apply findFrom_none_from [t] _ (t.length + 2 + t.length)
      · intro j hj
        apply tryMatchAt_none_from [t] _ (t.length + 2 + t.length) (by omega) _ j hj
        rw [hdrop3]
        intro c hc
        cases hc
      · omega
    rw [jsReplaceAll_eq_replaceFrom, replaceFrom_step, hfind0]
    dsimp only
    rw [if_neg (by omega)]
    rw [replaceFrom_step, show (0 : Nat) + (0 + t.length + 1) = t.length + 1 by omega]
    rw [hfindMid]
    dsimp only
    rw [if_neg (by omega)]
    rw [replaceFrom_step]
    rw [hfindEnd]
    have e1 : ((t ++ b1 :: b2 :: t).take 0).drop 0 = [] := rfl
    have e2 : ((t ++ b1 :: b2 :: t).drop 0).take 0 = [] := rfl
    have e3 : ((t ++ b1 :: b2 :: t).drop (0 + 0)).take t.length = t := by
      have : (t ++ b1 :: b2 :: t).take t.length = t := List.take_left t _
      simpa using this
    have e4 : ((t ++ b1 :: b2 :: t).drop (0 + 0 + t.length)).take 1 = [b1] := by
      have : (t ++ b1 :: b2 :: t).drop t.length = b1 :: b2 :: t := List.drop_left t _
      simp [this]
    have e5 : ((t ++ b1 :: b2 :: t).take (t.length + 1)).drop (t.length + 1) = [] := by
      rw [List.drop_eq_nil_iff]
      simp
    have e6 : ((t ++ b1 :: b2 :: t).drop (t.length + 1)).take 1 = [b2] := by
      rw [hdrop1]
      rfl
    have e7 : ((t ++ b1 :: b2 :: t).drop (t.length + 1 + 1)).take t.length = t := by
      have : t.length + 1 + 1 = t.length + 2 := by omega
      rw [this, hdrop2, List.take_length]
    have e8 : ((t ++ b1 :: b2 :: t).drop (t.length + 1 + 1 + t.length)).take 0 = [] :=
      List.take_zero _
    have e9 : (t ++ b1 :: b2 :: t).drop (t.length + 1 + (1 + t.length + 0)) = [] := by
      rw [List.drop_eq_nil_iff]
      simp
      omega
    rw [e1, e2, e3, e4, e5, e6, e7, e8, e9]
    rw [markerRepl, markerRepl]
    simp
  · -- (iv) two occurrences, one boundary character between
    have hfind0 : findFrom [t] (t ++ b :: t) 0 = some (0, 0, t.length, 1) := by
      rw [findFrom_step _ _ 0 (by simp)]
      rw [tryMatchAt_lead t b t hne htb hb]
    have hdropT : (t ++ b :: t).drop (t.length + 1) = t := by
      rw [List.drop_append 1]
      rfl
    have hfindRest : findFrom [t] (t ++ b :: t) (0 + (0 + t.length + 1)) = none := by
      apply findFrom_none_from [t] _ (t.length + 1)
      · intro j hj
        apply tryMatchAt_none_from [t] _ (t.length + 1) (by omega) _ j hj
        rw [hdropT]
        exact htb
      · omega
    rw [jsReplaceAll_eq_replaceFrom, replaceFrom_step, hfind0]
    dsimp only
    rw [if_neg (by omega)]
    rw [replaceFrom_step]
    rw [hfindRest]
    have e1 : ((t ++ b :: t).take 0).drop 0 = [] := rfl
    have e2 : ((t ++ b :: t).drop 0).take 0 = [] := rfl
    have e3 : ((t ++ b :: t).drop (0 + 0)).take t.length = t := by
      have : (t ++ b :: t).take t.length = t := List.take_left t _
      simpa using this
    have e4 : ((t ++ b :: t).drop (0 + 0 + t.length)).take 1 = [b] := by
      have : (t ++ b :: t).drop t.length = b :: t := List.drop_left t _
      simp [this]
    have e5 : (t ++ b :: t).drop (0 + (0 + t.length + 1)) = t := by
      simpa using hdropT
    rw [e1, e2, e3, e4, e5]
    rw [markerRepl]
    simp

/-- Witness for C4 at entry `pack` (title `Pack`), boundary characters
a space and a comma: the exact outputs of all four canonical shapes. -/
theorem claim_C4_witness :
    jsReplaceAllA "pack".toList [termAtoms "Pack".toList] "Pack".toList =
      markerRepl "pack".toList [] "Pack".toList [] ∧
    jsReplaceAllA "pack".toList [termAtoms "Pack".toList]
        (' ' :: "Pack".toList ++ [',']) =
      ' ' :: markerRepl "pack".toList [] "Pack".toList [] ++ [','] ∧
    jsReplaceAllA "pack".toList [termAtoms "Pack".toList]
        ("Pack".toList ++ ' ' :: ' ' :: "Pack".toList) =
      markerRepl "pack".toList [] "Pack".toList [' '] ++
        markerRepl "pack".toList [' '] "Pack".toList [] ∧
    jsReplaceAllA "pack".toList [termAtoms "Pack".toList]
        ("Pack".toList ++ ' ' :: "Pack".toList) =
      markerRepl "pack".toList [] "Pack".toList [' '] ++ "Pack".toList :=
  ⟨(claim_C4 "pack".toList "Pack".toList ' ' ' ' ',' (by decide) (by decide)
      (by decide) (by decide) (by decide) (by decide) (by decide)).1,
    (claim_C4 "pack".toList "Pack".toList ' ' ' ' ',' (by decide) (by decide)
      (by decide) (by decide) (by decide) (by decide) (by decide)).2.1,
    (claim_C4 "pack".toList "Pack".toList ' ' ' ' ' ' (by decide) (by decide)
      (by decide) (by decide) (by decide) (by decide) (by decide)).2.2.1,
    (claim_C4 "pack".toList "Pack".toList ' ' ' ' ' ' (by decide) (by decide)
      (by decide) (by decide) (by decide) (by decide) (by decide)).2.2.2⟩

/-- Counterexample to C4 as stated: in `"Pack Pack"` both occurrences
of `Pack` are standalone (the second at index 5), yet link compilation
yields `"$Pack:pack$ Pack"` — a single marker (two `$` characters);
occurrences separated by one boundary character are not all linked. -/
theorem claim_C4_counterexample :
    compileGlossaryLinks (parseGlossary c4Raw).entries (some "Pack Pack".toList) =
        some "$Pack:pack$ Pack".toList ∧
    standaloneOcc (rawTerms ⟨"pack".toList, "Pack".toList, none, none⟩)
        "Pack Pack".toList 5 "Pack".toList ∧
    List.count '$' "$Pack:pack$ Pack".toList = 2 := by decide

/-!
### Conflict detection and ordering (C1, C7)
-/

/-- A successful (possibly stateful) `.test` implies the matcher fires
on the string from a fresh state. -/
theorem jsTestA_true_matches (alts : List (List Atom)) (li : Nat) (s : Str)
    (h : (jsTestA alts li s).1 = true) : matcherMatchesA alts s = true := by
  rw [jsTestA] at h
  by_cases hlt : s.length < li
  · simp [hlt] at h
  · simp only [hlt, if_false] at h
    cases hf : findFromA alts s li with
    | none => rw [hf] at h; cases h
    | some r =>
      obtain ⟨p, g1, g2, g3⟩ := r
      have hs := findFromAuxA_sound alts s _ li p (g1, g2, g3) hf
      rw [matcherMatchesA]
      exact findFromA_isSome_of_tryMatchAtA alts s p hs.2
        (by rw [hs.1]; rfl) 0 (by omega)

/-- A matcher that fires nowhere makes every stateful `.test` fail. -/
theorem jsTestA_false_of_no_match (alts : List (List Atom)) (li : Nat) (s : Str)
    (h : matcherMatchesA alts s = false) : (jsTestA alts li s).1 = false := by
  cases hx : (jsTestA alts li s).1 with
  | false => rfl
  | true => rw [jsTestA_true_matches alts li s hx] at h; cases h

/-- A successful candidate scan means the matcher fires on some
candidate. -/
theorem scanCands_sound (alts : List (List Atom)) : ∀ (cs : List Str) (li : Nat),
    (scanCands alts li cs).1 = true → ∃ c ∈ cs, matcherMatchesA alts c = true := by
  intro cs
  induction cs with
  | nil => intro li h; cases h
  | cons c rest ih =>
    intro li h
    rw [scanCands] at h
    by_cases ht : (jsTestA alts li c).1 = true
    · exact ⟨c, List.mem_cons_self _ _, jsTestA_true_matches alts li c ht⟩
    · simp only [Bool.not_eq_true] at ht
      rw [ht] at h
      simp at h
      obtain ⟨d, hd, hm⟩ := ih _ h
      exact ⟨d, List.mem_cons_of_mem _ hd, hm⟩

/-- A scan over candidates the matcher never fires on fails. -/
theorem scanCands_false (alts : List (List Atom)) : ∀ (cs : List Str) (li : Nat),
    (∀ c ∈ cs, matcherMatchesA alts c = false) →
    (scanCands alts li cs).1 = false := by
  intro cs
  induction cs with
  | nil => intro li _; rfl
  | cons c rest ih =>
    intro li h
    rw [scanCands]
    have hf := jsTestA_false_of_no_match alts li c (h c (List.mem_cons_self _ _))
    rw [hf]
    simp only [Bool.false_eq_true, if_false]
    exact ih _ (fun d hd => h d (List.mem_cons_of_mem _ hd))

/-- Everything but the `conflicts` field agrees. -/
def entryShape (F O : PEntry) : Prop :=
  F.id = O.id ∧ F.title = O.title ∧ F.aliases = O.aliases ∧
    F.description = O.description ∧ F.descendantCount = O.descendantCount ∧
    F.terms = O.terms

theorem entryShape_refl (F : PEntry) : entryShape F F :=
  ⟨rfl, rfl, rfl, rfl, rfl, rfl⟩

theorem entryShape_trans {F G H : PEntry} (h1 : entryShape F G)
    (h2 : entryShape G H) : entryShape F H := by
  obtain ⟨a1, a2, a3, a4, a5, a6⟩ := h1
  obtain ⟨b1, b2, b3, b4, b5, b6⟩ := h2
  exact ⟨a1.trans b1, a2.trans b2, a3.trans b3, a4.trans b4, a5.trans b5, a6.trans b6⟩

theorem entryShape_candidates {F O : PEntry} (h : entryShape F O) :
    candidateStrings F = candidateStrings O := by
  obtain ⟨a1, _, a3, _, _, _⟩ := h
  rw [candidateStrings, candidateStrings, a1, a3]

/-- `innerLoop` only ever appends to `conflicts`: all other fields are
untouched. -/
theorem innerLoop_shape (E : PEntry) (i : Nat) : ∀ (js : List Nat)
    (cur : List PEntry) (li j : Nat) (F O : PEntry),
    (innerLoop E i cur js li)[j]? = some F → cur[j]? = some O →
    entryShape F O := by
  intro js
  induction js with
  | nil =>
    intro cur li j F O hF hO
    rw [innerLoop] at hF
    rw [hF] at hO
    cases hO
    exact entryShape_refl _
  | cons k ks ih =>
    intro cur li j F O hF hO
    rw [innerLoop] at hF
    by_cases hk : k = i
    · rw [if_pos hk] at hF
      exact ih cur li j F O hF hO
    · rw [if_neg hk] at hF
      cases hcur : cur[k]? with
      | none =>
        rw [hcur] at hF
        exact ih cur li j F O hF hO
      | some G =>
        rw [hcur] at hF
        dsimp only at hF
        by_cases hhit : (scanCands E.terms li (candidateStrings G)).1 = true
        · rw [if_pos hhit] at hF
          have hklt : k < cur.length := by
            obtain ⟨hlt, _⟩ := List.getElem?_eq_some.mp hcur
            exact hlt
          by_cases hkj : k = j
          · subst hkj
            have hmid : (cur.set k { G with conflicts := G.conflicts ++ [E.id] })[k]? =
                some { G with conflicts := G.conflicts ++ [E.id] } := by
              rw [List.getElem?_set]
              simp [hklt]
            have hsh := ih _ _ k F { G with conflicts := G.conflicts ++ [E.id] } hF hmid
            have hGO : G = O := by
              rw [hcur] at hO
              cases hO
              rfl
            subst hGO
            exact entryShape_trans hsh ⟨rfl, rfl, rfl, rfl, rfl, rfl⟩
          · have hmid : (cur.set k { G with conflicts := G.conflicts ++ [E.id] })[j]? =
                cur[j]? := by
              rw [List.getElem?_set]
              simp [hkj]
            exact ih _ _ j F O hF (by rw [hmid]; exact hO)
        · simp only [Bool.not_eq_true] at hhit
          rw [hhit] at hF
          simp only [Bool.false_eq_true, if_false] at hF
          exact ih cur _ j F O hF hO

/-- Provenance of `conflicts` entries added by `innerLoop`: each added
id is `E`'s, recorded only when `E`'s matcher genuinely fires on one of
the entry's candidate strings (id or alias). -/
theorem innerLoop_conflicts (E : PEntry) (i : Nat) : ∀ (js : List Nat)
    (cur : List PEntry) (li j : Nat) (F O : PEntry),
    (innerLoop E i cur js li)[j]? = some F → cur[j]? = some O →
    ∀ cid ∈ F.conflicts, cid ∈ O.conflicts ∨
      (cid = E.id ∧ ∃ c ∈ candidateStrings O, matcherMatchesA E.terms c = true) := by
  intro js
  induction js with
  | nil =>
    intro cur li j F O hF hO cid hc
    rw [innerLoop] at hF
    rw [hF] at hO
    cases hO
    exact Or.inl hc
  | cons k ks ih =>
    intro cur li j F O hF hO cid hc
    rw [innerLoop] at hF
    by_cases hk : k = i
    · rw [if_pos hk] at hF
      exact ih cur li j F O hF hO cid hc
    · rw [if_neg hk] at hF
      cases hcur : cur[k]? with
      | none =>
        rw [hcur] at hF
        exact ih cur li j F O hF hO cid hc
      | some G =>
        rw [hcur] at hF
        dsimp only at hF
        by_cases hhit : (scanCands E.terms li (candidateStrings G)).1 = true
        · rw [if_pos hhit] at hF
          have hklt : k < cur.length := by
            obtain ⟨hlt, _⟩ := List.getElem?_eq_some.mp hcur
            exact hlt
          by_cases hkj : k = j
          · subst hkj
            have hGO : G = O := by
              rw [hcur] at hO
              cases hO
              rfl
            subst hGO
            have hmid : (cur.set k { G with conflicts := G.conflicts ++ [E.id] })[k]? =
                some { G with conflicts := G.conflicts ++ [E.id] } := by
              rw [List.getElem?_set]
              simp [hklt]
            have hrec := ih _ _ k F { G with conflicts := G.conflicts ++ [E.id] }
              hF hmid cid hc
            cases hrec with
            | inl hmem =>
              have : cid ∈ G.conflicts ∨ cid ∈ [E.id] := List.mem_append.mp hmem
              cases this with
              | inl h1 => exact Or.inl h1
              | inr h2 =>
                have hcid : cid = E.id := by simpa using h2
                obtain ⟨c, hcmem, hcm⟩ := scanCands_sound E.terms _ li hhit
                exact Or.inr ⟨hcid, c, hcmem, hcm⟩
            | inr hprov =>
              obtain ⟨hcid, c, hcmem, hcm⟩ := hprov
              exact Or.inr ⟨hcid, c, hcmem, hcm⟩
          · have hmid : (cur.set k { G with conflicts := G.conflicts ++ [E.id] })[j]? =
                cur[j]? := by
              rw [List.getElem?_set]
              simp [hkj]
            exact ih _ _ j F O hF (by rw [hmid]; exact hO) cid hc
        · simp only [Bool.not_eq_true] at hhit
          rw [hhit] at hF
          simp only [Bool.false_eq_true, if_false] at hF
          exact ih cur _ j F O hF hO cid hc

theorem outerLoop_length : ∀ (is : List Nat) (es : List PEntry),
    (outerLoop es is).length = es.length := by
  intro is
  induction is with
  | nil => intro es; rfl
  | cons i is ih =>
    intro es
    rw [outerLoop]
    cases hi : es[i]? with
    | none => exact ih es
    | some E => rw [ih, innerLoop_length]

theorem outerLoop_shape : ∀ (is : List Nat) (es : List PEntry) (j : Nat)
    (F O : PEntry), (outerLoop es is)[j]? = some F → es[j]? = some O →
    entryShape F O := by
  intro is
  induction is with
  | nil =>
    intro es j F O hF hO
    rw [outerLoop] at hF
    rw [hF] at hO
    cases hO
    exact entryShape_refl _
  | cons i is ih =>
    intro es j F O hF hO
    rw [outerLoop] at hF
    cases hi : es[i]? with
    | none =>
      rw [hi] at hF
      exact ih es j F O hF hO
    | some E =>
      rw [hi] at hF
      have hjlt : j < es.length := by
        obtain ⟨hlt, _⟩ := List.getElem?_eq_some.mp hO
        exact hlt
      have hjlt' : j < (innerLoop E i es (List.range es.length) 0).length := by
        rw [innerLoop_length]
        exact hjlt
      have hmid := List.getElem?_eq_getElem hjlt'
      refine entryShape_trans (ih _ j F _ hF hmid) ?_
      exact innerLoop_shape E i (List.range es.length) es 0 j _ O hmid hO

theorem outerLoop_conflicts : ∀ (is : List Nat) (es : List PEntry) (j : Nat)
    (F O : PEntry), (outerLoop es is)[j]? = some F → es[j]? = some O →
    ∀ cid ∈ F.conflicts, cid ∈ O.conflicts ∨
      ∃ (i : Nat) (E : PEntry), es[i]? = some E ∧ cid = E.id ∧
        ∃ c ∈ candidateStrings O, matcherMatchesA E.terms c = true := by
  intro is
  induction is with
  | nil =>
    intro es j F O hF hO cid hc
    rw [outerLoop] at hF
    rw [hF] at hO
    cases hO
    exact Or.inl hc
  | cons i is ih =>
    intro es j F O hF hO cid hc
    rw [outerLoop] at hF
    cases hi : es[i]? with
    | none =>
      rw [hi] at hF
      exact ih es j F O hF hO cid hc
    | some E =>
      rw [hi] at hF
      have hjlt : j < es.length := by
        obtain ⟨hlt, _⟩ := List.getElem?_eq_some.mp hO
        exact hlt
      have hjlt' : j < (innerLoop E i es (List.range es.length) 0).length := by
        rw [innerLoop_length]
        exact hjlt
      have hmid := List.getElem?_eq_getElem hjlt'
      set M := (innerLoop E i es (List.range es.length) 0)[j] with hM
      have hshapeMO : entryShape M O :=
        innerLoop_shape E i (List.range es.length) es 0 j M O hmid hO
      have hrec := ih _ j F M hF hmid cid hc
      cases hrec with
      | inl hmem =>
        have := innerLoop_conflicts E i (List.range es.length) es 0 j M O hmid hO cid hmem
        cases this with
        | inl h1 => exact Or.inl h1
        | inr h2 =>
          obtain ⟨hcid, c, hcm, hmm⟩ := h2
          exact Or.inr ⟨i, E, hi, hcid, c, hcm, hmm⟩
      | inr hprov =>
        obtain ⟨i', E', hE', hcid, c, hcm, hmm⟩ := hprov
        have hilt : i' < es.length := by
          have := List.getElem?_eq_some.mp hE'
          obtain ⟨hlt, _⟩ := this
          rw [innerLoop_length] at hlt
          exact hlt
        have hE0 := List.getElem?_eq_getElem hilt
        set E0 := es[i'] with hE0d
        have hshapeE : entryShape E' E0 :=
          innerLoop_shape E i (List.range es.length) es 0 i' E' E0 hE' hE0
        obtain ⟨hid1, _, _, _, _, h6⟩ := hshapeE
        refine Or.inr ⟨i', E0, hE0, ?_, c, ?_, ?_⟩
        · rw [hcid, hid1]
        · rwa [entryShape_candidates hshapeMO] at hcm
        · rwa [h6] at hmm

theorem stableInsert_perm (cmp : α → α → Int) (x : α) : ∀ (l : List α),
    List.Perm (stableInsert cmp x l) (x :: l) := by
  intro l
  induction l with
  | nil => exact List.Perm.refl _
  | cons y ys ih =>
    rw [stableInsert]
    by_cases hc : cmp x y < 0
    · rw [if_pos hc]
    · rw [if_neg hc]
      exact List.Perm.trans (List.Perm.cons y ih) (List.Perm.swap x y ys)

theorem jsSort_perm (cmp : α → α → Int) (l : List α) :
    List.Perm (jsSort cmp l) l := by
  have H : ∀ (l acc : List α),
      List.Perm (l.foldl (fun a x => stableInsert cmp x a) acc) (acc ++ l) := by
    intro l
    induction l with
    | nil => intro acc; simp
    | cons x xs ih =>
      intro acc
      rw [List.foldl_cons]
      refine List.Perm.trans (ih (stableInsert cmp x acc)) ?_
      refine List.Perm.trans (List.Perm.append_right xs (stableInsert_perm cmp x acc)) ?_
      exact List.perm_middle.symm
  have := H l []
  simpa [jsSort] using this

theorem stableInsert_of_not_lt (cmp : α → α → Int) (x : α) : ∀ (l : List α),
    (∀ y ∈ l, ¬ cmp x y < 0) → stableInsert cmp x l = l ++ [x] := by
  intro l
  induction l with
  | nil => intro _; rfl
  | cons y ys ih =>
    intro h
    rw [stableInsert, if_neg (h y (List.mem_cons_self _ _))]
    rw [ih (fun z hz => h z (List.mem_cons_of_mem _ hz))]
    rfl

theorem jsSort_eq_self (cmp : α → α → Int) (l : List α)
    (h : ∀ x ∈ l, ∀ y, cmp x y = 0) : jsSort cmp l = l := by
  have H : ∀ (l' acc : List α), (∀ x ∈ l', ∀ y, cmp x y = 0) →
      l'.foldl (fun a x => stableInsert cmp x a) acc = acc ++ l' := by
    intro l'
    induction l' with
    | nil => intro acc _; simp
    | cons x xs ih =>
      intro acc hl
      rw [List.foldl_cons]
      rw [stableInsert_of_not_lt cmp x acc
        (fun y _ => by rw [hl x (List.mem_cons_self _ _) y]; omega)]
      rw [ih (acc ++ [x]) (fun z hz => hl z (List.mem_cons_of_mem _ hz))]
      simp
  have := H l [] h
  simpa [jsSort] using this

/-- C1 (amended: conflict detection tests the other entry's *id* — not
its title — and its aliases, with the entry's compiled regex (the
broken-escape matcher embedded above), and only the soundness direction
of the original "if and only if" holds; scoped to ASCII entries, where
the `i`-flag model is exact).  Whenever `F`'s conflicts list contains
an id `cid` after glossary parsing, `cid` is the id of some raw entry
whose compiled matcher genuinely fires on one of `F`'s candidate
strings (`F`'s id or one of its aliases); equivalently, entries whose
matcher fires on none of `F`'s id and aliases are absent from `F`'s
conflicts list.  (The converse fails twice over: the scan tests ids
rather than titles, and the `g`-flagged regex's `lastIndex` persists
between `.test` calls, so a genuine match can go unrecorded.) -/
theorem claim_C1 (raw : RawGlossary)
    (hascii : ∀ r ∈ raw.entries, ∀ u ∈ rawTerms r, asciiStr u = true)
    (F : PEntry) (hF : F ∈ (parseGlossary raw).entries) (cid : Str)
    (hc : cid ∈ F.conflicts) :
    ∃ r ∈ raw.entries, cid = r.id ∧
      ∃ c ∈ candidateStrings F, matcherMatchesA (entryAtoms r) c = true := by
  have hF1 : F ∈ markConflicts (raw.entries.map initEntry) := by
    rw [parseGlossary] at hF
    dsimp only at hF
    have h2 := (jsSort_perm _ _).mem_iff.mp hF
    exact (jsSort_perm _ _).mem_iff.mp h2
  obtain ⟨j, hj⟩ := List.mem_iff_getElem?.mp hF1
  have hjlt : j < (raw.entries.map initEntry).length := by
    obtain ⟨hlt, _⟩ := List.getElem?_eq_some.mp hj
    rw [markConflicts, outerLoop_length] at hlt
    exact hlt
  have hO := List.getElem?_eq_getElem hjlt
  set O := (raw.entries.map initEntry)[j] with hOd
  have hprov := outerLoop_conflicts (List.range (raw.entries.map initEntry).length)
    (raw.entries.map initEntry) j F O hj hO cid hc
  have hshape := outerLoop_shape (List.range (raw.entries.map initEntry).length)
    (raw.entries.map initEntry) j F O hj hO
  have hOconf : O.conflicts = [] := by
    rw [hOd]
    rw [List.getElem_map]
    rfl
  cases hprov with
  | inl h1 => rw [hOconf] at h1; cases h1
  | inr h2 =>
    obtain ⟨i, E, hiE, hcid, c, hcm, hmm⟩ := h2
    have hilt : i < raw.entries.length := by
      obtain ⟨hlt, _⟩ := List.getElem?_eq_some.mp hiE
      simpa using hlt
    have hEr : E = initEntry raw.entries[i] := by
      rw [List.getElem?_map] at hiE
      rw [List.getElem?_eq_getElem hilt] at hiE
      simpa using hiE.symm
    refine ⟨raw.entries[i], List.getElem_mem hilt, ?_, c, ?_, ?_⟩
    · rw [hcid, hEr]
      rfl
    · rwa [entryShape_candidates hshape]
    · rw [hEr] at hmm
      exact hmm

/-- Witness for C1: in `c1wRaw` the parsed `pack-skater` entry carries
the conflict `pack`, whose provenance the theorem certifies. -/
theorem claim_C1_witness :
    ∃ r ∈ c1wRaw.entries, "pack".toList = r.id ∧
      ∃ c ∈ candidateStrings ⟨"pack-skater".toList, "Pack Skater".toList, none,
        none, 0, [termAtoms "Pack Skater".toList], ["pack".toList]⟩,
        matcherMatchesA (entryAtoms r) c = true :=
  claim_C1 c1wRaw (by decide)
    ⟨"pack-skater".toList, "Pack Skater".toList, none, none, 0,
      [termAtoms "Pack Skater".toList], ["pack".toList]⟩
    (by decide) "pack".toList (by decide)

/-- Counterexample to C1 as stated: in `c1Raw` entry `e`'s matcher
fires on entry `f`'s *title* (`x`), so the claim requires `e` in `f`'s
conflicts list, but conflict detection tests ids (`f`), and both
conflicts lists stay empty. -/
theorem claim_C1_counterexample :
    matcherMatchesA (entryAtoms ⟨"e".toList, "x".toList, none, none⟩)
        "x".toList = true ∧
    (parseGlossary c1Raw).entries.map (fun e => (e.id, e.conflicts)) =
      [("e".toList, []), ("f".toList, [])] := by decide

/-- C7 (amended: "no textual overlap" must be read against what
conflict detection actually tests — each entry's *id* and aliases,
probed with the entry's compiled (broken-escape) regex — rather than
its title and aliases; scoped to ASCII entries, where the `i`-flag
model is exact).  If no entry's compiled matcher fires on any other
entry's id or aliases, then after glossary parsing every conflicts list
is empty and the final order is exactly the id-sorted entry list. -/
theorem claim_C7 (raw : RawGlossary)
    (hascii : ∀ r ∈ raw.entries, ∀ u ∈ rawTerms r, asciiStr u = true)
    (h : ∀ (i j : Fin (raw.entries.map initEntry).length), i.val ≠ j.val →
      ∀ c ∈ candidateStrings ((raw.entries.map initEntry).get j),
        matcherMatchesA ((raw.entries.map initEntry).get i).terms c = false) :
    (∀ F ∈ (parseGlossary raw).entries, F.conflicts = []) ∧
    (parseGlossary raw).entries =
      jsSort (fun a b => strCmp a.id b.id) (raw.entries.map initEntry) := by
  set es0 := raw.entries.map initEntry with hes0
  have hinner : ∀ (E : PEntry) (i : Nat) (hi : i < es0.length), E = es0.get ⟨i, hi⟩ →
      ∀ (js : List Nat) (li : Nat), innerLoop E i es0 js li = es0 := by
    intro E i hi hE js
    induction js with
    | nil => intro li; rfl
    | cons k ks ih =>
      intro li
      rw [innerLoop]
      by_cases hk : k = i
      · rw [if_pos hk]
        exact ih _
      · rw [if_neg hk]
        cases hcur : es0[k]? with
        | none => exact ih _
        | some G =>
          have hklt : k < es0.length := by
            obtain ⟨hlt, _⟩ := List.getElem?_eq_some.mp hcur
            exact hlt
          have hGk : G = es0.get ⟨k, hklt⟩ := by
            obtain ⟨hlt, he⟩ := List.getElem?_eq_some.mp hcur
            rw [List.get_eq_getElem]
            exact he.symm
          have hscan : (scanCands E.terms li (candidateStrings G)).1 = false := by
            apply scanCands_false
            intro c hcm
            have := h ⟨i, hi⟩ ⟨k, hklt⟩ (by simpa using Ne.symm hk)
            rw [← hGk] at this
            rw [hE]
            exact this c hcm
          dsimp only
          rw [hscan]
          simp only [Bool.false_eq_true, if_false]
          exact ih _
  have houter : ∀ (is : List Nat), outerLoop es0 is = es0 := by
    intro is
    induction is with
    | nil => rfl
    | cons i is ih =>
      rw [outerLoop]
      cases hi : es0[i]? with
      | none => exact ih
      | some E =>
        have hilt : i < es0.length := by
          obtain ⟨hlt, _⟩ := List.getElem?_eq_some.mp hi
          exact hlt
        have hEi : E = es0.get ⟨i, hilt⟩ := by
          obtain ⟨hlt, he⟩ := List.getElem?_eq_some.mp hi
          rw [List.get_eq_getElem]
          exact he.symm
        dsimp only
        rw [hinner E i hilt hEi (List.range es0.length) 0]
        exact ih
  have hmark : markConflicts es0 = es0 := houter _
  have hconf0 : ∀ F ∈ es0, F.conflicts = [] := by
    intro F hFm
    rw [hes0] at hFm
    obtain ⟨r, _, hr⟩ := List.mem_map.mp hFm
    rw [← hr]
    rfl
  have hsorted1 : ∀ F ∈ jsSort (fun a b => strCmp a.id b.id) es0, F.conflicts = [] := by
    intro F hFm
    exact hconf0 F ((jsSort_perm _ _).mem_iff.mp hFm)
  have hsort2 : jsSort (fun a b => compareBooleans (a.conflicts.contains b.id) false)
      (jsSort (fun a b => strCmp a.id b.id) es0) =
      jsSort (fun a b => strCmp a.id b.id) es0 := by
    apply jsSort_eq_self
    intro x hx y
    rw [hsorted1 x hx]
    rfl
  constructor
  · intro F hFm
    rw [parseGlossary] at hFm
    dsimp only at hFm
    rw [hmark, hsort2] at hFm
    exact hsorted1 F hFm
  · rw [parseGlossary]
    dsimp only
    rw [hmark, hsort2]

/-- Witness for C7: `c7wRaw` (entries `beta`, `alpha` with no cross
firing) parses with empty conflicts lists and in plain id order. -/
theorem claim_C7_witness :
    (∀ F ∈ (parseGlossary c7wRaw).entries, F.conflicts = []) ∧
    (parseGlossary c7wRaw).entries =
      jsSort (fun a b => strCmp a.id b.id) (c7wRaw.entries.map initEntry) :=
  claim_C7 c7wRaw (by decide) (by decide)

/-- Counterexample to C7 as stated: in `c7Raw` no matcher fires on the
other entry's title or aliases, yet entry `b x`'s conflicts list is
`[a]` (its *id* contains the standalone token `x`), not empty. -/
theorem claim_C7_counterexample :
    matcherMatchesA (entryAtoms ⟨"a".toList, "x".toList, none, none⟩)
        "zzz".toList = false ∧
    matcherMatchesA (entryAtoms ⟨"b x".toList, "zzz".toList, none, none⟩)
        "x".toList = false ∧
    (parseGlossary c7Raw).entries.map (fun e => (e.id, e.conflicts)) =
      [("a".toList, []), ("b x".toList, ["a".toList])] := by decide

/-!
### Frame property of the resolver (C10)
-/

/-- All cells present before survive unchanged; the store only grows. -/
def storeFrame (σ σ' : Store) : Prop :=
  σ.length ≤ σ'.length ∧ ∀ a, a < σ.length → σ'[a]? = σ[a]?

theorem storeFrame_refl (σ : Store) : storeFrame σ σ :=
  ⟨Nat.le_refl _, fun _ _ => rfl⟩

theorem storeFrame_trans {σ1 σ2 σ3 : Store} (h1 : storeFrame σ1 σ2)
    (h2 : storeFrame σ2 σ3) : storeFrame σ1 σ3 := by
  refine ⟨h1.1.trans h2.1, fun a ha => ?_⟩
  rw [h2.2 a (Nat.lt_of_lt_of_le ha h1.1), h1.2 a ha]

theorem storeFrame_append (σ : Store) (ext : Store) : storeFrame σ (σ ++ ext) := by
  refine ⟨by simp, fun a ha => ?_⟩
  rw [List.getElem?_append]
  simp [ha]

/-- Writing a property touches only the cell at the written address. -/
theorem setCellVal_frame (σ : Store) (a i : Nat) (v : HVal) :
    (setCellVal σ a i v).length = σ.length ∧
      ∀ b, b ≠ a → (setCellVal σ a i v)[b]? = σ[b]? := by
  rw [setCellVal]
  cases hc : σ[a]? with
  | none => exact ⟨rfl, fun _ _ => rfl⟩
  | some c =>
    cases c with
    | arrC es =>
      dsimp only
      refine ⟨List.length_set _ _ _, fun b hb => ?_⟩
      simp [List.getElem?_set, Ne.symm hb]
    | objC fs =>
      dsimp only
      cases hf : fs[i]? with
      | none => exact ⟨rfl, fun _ _ => rfl⟩
      | some kv =>
        obtain ⟨k, w⟩ := kv
        dsimp only
        refine ⟨List.length_set _ _ _, fun b hb => ?_⟩
        simp [List.getElem?_set, Ne.symm hb]

mutual

theorem allocJ_frame (t : JTree) : ∀ σ : Store, storeFrame σ (allocJ σ t).1 := by
  cases t with
  | undef => exact fun σ => storeFrame_refl σ
  | null => exact fun σ => storeFrame_refl σ
  | bool b => exact fun σ => storeFrame_refl σ
  | num n => exact fun σ => storeFrame_refl σ
  | str s2 => exact fun σ => storeFrame_refl σ
  | arr es =>
    intro σ
    rw [allocJ]
    exact storeFrame_trans (allocJList_frame es σ) (storeFrame_append _ _)
  | obj kvs =>
    intro σ
    rw [allocJ]
    exact storeFrame_trans (allocJProps_frame kvs σ) (storeFrame_append _ _)

theorem allocJList_frame (ts : List JTree) : ∀ σ : Store,
    storeFrame σ (allocJList σ ts).1 := by
  cases ts with
  | nil => exact fun σ => storeFrame_refl σ
  | cons t ts =>
    intro σ
    rw [allocJList]
    exact storeFrame_trans (allocJ_frame t σ) (allocJList_frame ts (allocJ σ t).1)

theorem allocJProps_frame (ts : List (Str × JTree)) : ∀ σ : Store,
    storeFrame σ (allocJProps σ ts).1 := by
  cases ts with
  | nil => exact fun σ => storeFrame_refl σ
  | cons kt ts =>
    intro σ
    obtain ⟨k, t⟩ := kt
    rw [allocJProps]
    exact storeFrame_trans (allocJ_frame t σ) (allocJProps_frame ts (allocJ σ t).1)

end

/-- Combined frame statement for the store-passing resolver, proved by
induction on the fuel: every function leaves all pre-existing cells
unchanged, except that the property loop rewrites the (freshly
allocated) cell it was pointed at. -/
theorem heapFrame (parse : Str → Option JTree) (fs : Str → Option Str) :
    ∀ fuel : Nat,
      (∀ σ v fp r, resolveFilesH parse fs fuel σ v fp = some r →
        storeFrame σ r.1) ∧
      (∀ σ a i fp σ2, propLoopH parse fs fuel σ a i fp = some σ2 →
        σ.length ≤ σ2.length ∧ ∀ b, b < σ.length → b ≠ a → σ2[b]? = σ[b]?) ∧
      (∀ σ v fp r, resolveValueH parse fs fuel σ v fp = some r →
        storeFrame σ r.1) ∧
      (∀ σ p r, readJSONFileAndResolveFilesH parse fs fuel σ p = some r →
        storeFrame σ r.1) := by
  intro fuel
  induction fuel with
  | zero =>
    refine ⟨fun σ v fp r h => ?_, fun σ a i fp σ2 h => ?_,
      fun σ v fp r h => ?_, fun σ p r h => ?_⟩ <;> cases h
  | succ n ih =>
    obtain ⟨ihF, ihL, ihV, ihR⟩ := ih
    have HF : ∀ σ v fp r, resolveFilesH parse fs (n + 1) σ v fp = some r →
        storeFrame σ r.1 := by
      intro σ v fp r h
      cases v with
      | undef => cases h; exact storeFrame_refl σ
      | null => cases h; exact storeFrame_refl σ
      | bool b => cases h; exact storeFrame_append σ _
      | num m => cases h; exact storeFrame_append σ _
      | str s2 => cases h; exact storeFrame_append σ _
      | ref a =>
        rw [resolveFilesH] at h
        cases hc : σ[a]? with
        | none => rw [hc] at h; cases h
        | some c =>
          rw [hc] at h
          simp only [Option.bind_eq_bind, Option.bind_eq_some, Option.pure_def,
            Option.some.injEq] at h
          obtain ⟨σ2, hloop, hr⟩ := h
          have hl := ihL (σ ++ [c]) σ.length 0 fp σ2 hloop
          subst hr
          refine ⟨by simp at hl ⊢; omega, fun b hb => ?_⟩
          have h1 := hl.2 b (by simp; omega) (by omega)
          rw [h1]
          exact (storeFrame_append σ [c]).2 b hb
    have HL : ∀ σ a i fp σ2, propLoopH parse fs (n + 1) σ a i fp = some σ2 →
        σ.length ≤ σ2.length ∧ ∀ b, b < σ.length → b ≠ a → σ2[b]? = σ[b]? := by
      intro σ a i fp σ2 h
      rw [propLoopH] at h
      cases hc : σ[a]? with
      | none => rw [hc] at h; cases h
      | some c =>
        rw [hc] at h
        dsimp only at h
        by_cases hlen : i < cellLen c
        · rw [if_pos hlen] at h
          cases hv : cellVal c i with
          | none => rw [hv] at h; cases h
          | some v =>
            rw [hv] at h
            simp only [Option.bind_eq_bind, Option.bind_eq_some] at h
            obtain ⟨rv, hrv, hloop⟩ := h
            have hfv := ihV σ v fp rv hrv
            have hset := setCellVal_frame rv.1 a i rv.2
            have hrec := ihL (setCellVal rv.1 a i rv.2) a (i + 1) fp σ2 hloop
            constructor
            · calc σ.length ≤ rv.1.length := hfv.1
                _ = (setCellVal rv.1 a i rv.2).length := hset.1.symm
                _ ≤ σ2.length := hrec.1
            · intro b hb hba
              have hb2 : b < (setCellVal rv.1 a i rv.2).length := by
                rw [hset.1]; exact Nat.lt_of_lt_of_le hb hfv.1
              have h1 := hrec.2 b hb2 hba
              rw [h1, hset.2 b hba, hfv.2 b hb]
        · rw [if_neg hlen] at h
          cases h
          exact ⟨Nat.le_refl _, fun _ _ _ => rfl⟩
    have HV : ∀ σ v fp r, resolveValueH parse fs (n + 1) σ v fp = some r →
        storeFrame σ r.1 := by
      intro σ v fp r h
      cases v with
      | str s2 =>
        rw [resolveValueH] at h
        by_cases hjson : startsWith "json:".toList s2 = true
        · rw [if_pos hjson] at h
          simp only [Option.bind_eq_bind, Option.bind_eq_some] at h
          obtain ⟨rr, hrr, hres⟩ := h
          exact storeFrame_trans (ihR σ _ rr hrr) (ihF rr.1 rr.2 fp r hres)
        · rw [if_neg hjson] at h
          by_cases hmd : startsWith "markdown:".toList s2 = true
          · rw [if_pos hmd] at h
            cases hfs : fs (resolveRelativeFilePath fp (extractFilePath s2)) with
            | none => rw [hfs] at h; cases h
            | some c =>
              rw [hfs] at h
              cases h
              exact storeFrame_refl σ
          · rw [if_neg hmd] at h
            cases h
            exact storeFrame_refl σ
      | ref a => exact ihF σ (.ref a) fp r h
      | null => exact ihF σ .null fp r h
      | undef => cases h; exact storeFrame_refl σ
      | bool b => cases h; exact storeFrame_refl σ
      | num m => cases h; exact storeFrame_refl σ
    have HR : ∀ σ p r, readJSONFileAndResolveFilesH parse fs (n + 1) σ p = some r →
        storeFrame σ r.1 := by
      intro σ p r h
      rw [readJSONFileAndResolveFilesH] at h
      cases hj : readJSONFile parse fs p with
      | none => rw [hj] at h; cases h
      | some j =>
        rw [hj] at h
        simp only [Option.bind_eq_bind, Option.some_bind] at h
        exact storeFrame_trans (allocJ_frame j σ) (ihF (allocJ σ j).1 (allocJ σ j).2 p r h)
    exact ⟨HF, HL, HV, HR⟩

/-- The root value the resolver returns is never a reference into the
pre-existing heap: any reference it returns is freshly allocated. -/
theorem resolveFilesH_fresh (parse : Str → Option JTree) (fs : Str → Option Str)
    (fuel : Nat) (σ σ2 : Store) (v : HVal) (fp : Str) (a : Nat)
    (h : resolveFilesH parse fs fuel σ v fp = some (σ2, .ref a)) :
    σ.length ≤ a := by
  cases fuel with
  | zero => cases h
  | succ n =>
    cases v with
    | undef => cases h
    | null => cases h
    | bool b => cases h; exact Nat.le_refl _
    | num m => cases h; exact Nat.le_refl _
    | str s2 => cases h; exact Nat.le_refl _
    | ref b =>
      rw [resolveFilesH] at h
      cases hc : σ[b]? with
      | none => rw [hc] at h; cases h
      | some c =>
        rw [hc] at h
        simp only [Option.bind_eq_bind, Option.bind_eq_some, Option.pure_def,
          Option.some.injEq, Prod.mk.injEq] at h
        obtain ⟨σ3, _, _, hpair⟩ := h
        injection hpair with hlen
        omega

/-- C10.  The reference resolver never mutates its input: for every
input value (in particular a reference to the caller's tree) it
allocates a fresh cell at every array/object level and writes resolved
values only into the copies, so after resolution every pre-existing
heap cell — hence the caller's original tree — is unchanged, and the
returned root, when it is a reference, points at a freshly allocated
cell. -/
theorem claim_C10 (parse : Str → Option JTree) (fs : Str → Option Str)
    (fuel : Nat) (σ σ2 : Store) (v v2 : HVal) (fp : Str)
    (h : resolveFilesH parse fs fuel σ v fp = some (σ2, v2)) :
    (∀ a, a < σ.length → σ2[a]? = σ[a]?) ∧ σ.length ≤ σ2.length ∧
      (∀ a, v2 = HVal.ref a → σ.length ≤ a) := by
  have hf := (heapFrame parse fs fuel).1 σ v fp (σ2, v2) h
  refine ⟨hf.2, hf.1, fun a ha => ?_⟩
  subst ha
  exact resolveFilesH_fresh parse fs fuel σ σ2 v fp a h

/-- Witness for C10 on the concrete two-cell heap: the resolved store
keeps cells 0 and 1 unchanged and returns the fresh root address 2. -/
theorem claim_C10_witness :
    (∀ a, a < c10Store.length →
      ([HCell.objC [("k".toList, HVal.str "v".toList), ("n".toList, HVal.ref 1)],
        HCell.arrC [HVal.num 1],
        HCell.objC [("k".toList, HVal.str "v".toList), ("n".toList, HVal.ref 3)],
        HCell.arrC [HVal.num 1]] : Store)[a]? = c10Store[a]?) ∧
    c10Store.length ≤ 4 ∧
    (∀ a, HVal.ref 2 = HVal.ref a → c10Store.length ≤ a) := by
  have h := claim_C10 (fun _ => none) (fun _ => none) 10 c10Store
    [HCell.objC [("k".toList, HVal.str "v".toList), ("n".toList, HVal.ref 1)],
     HCell.arrC [HVal.num 1],
     HCell.objC [("k".toList, HVal.str "v".toList), ("n".toList, HVal.ref 3)],
     HCell.arrC [HVal.num 1]]
    (HVal.ref 0) (HVal.ref 2) "lib.json".toList (by decide)
  exact ⟨h.1, h.2.1, h.2.2⟩

end LibraryCompiler